import Mathlib

/-!
# Verification of the codebase-digest call-graph core

Shallow embedding of the derivation engine of `codebase_digest`:
symbol indexing and call resolution, graph construction and pruning
(`exporters/graph_exporter.py`), execution-flow tracing
(`analyzer/flow_analyzer.py`) and the complexity metric
(`analyzer/metrics_analyzer.py`).  Python strings are Lean `String`s,
`pathlib.Path`s are the path strings, Python lists are Lean `List`s and
Python sets are `Finset`s (or membership-deduplicated lists).
-/

namespace CodebaseDigest

/-! ## String utilities

`splitOnChar` models Python's `str.split(sep)` for a one-character
separator; `splitColons` models `str.split("::")`; `lowerStr` models
`str.lower()` (ASCII); `shortName` models `name.split('.')[-1]` and
`fileName` models `pathlib.Path(p).name`. -/

/-- Split a character list at every occurrence of `sep` (Python `str.split`
semantics for a single-character separator: always at least one piece). -/
def splitOnChar (sep : Char) : List Char → List (List Char)
  | [] => [[]]
  | c :: cs =>
    match splitOnChar sep cs with
    | [] => [[]]
    | h :: t => if c = sep then [] :: h :: t else (c :: h) :: t

/-- Rejoin the pieces of a split with the separator interleaved. -/
def joinOnChar (sep : Char) : List (List Char) → List Char
  | [] => []
  | [h] => h
  | h :: t => h ++ sep :: joinOnChar sep t

theorem splitOnChar_ne_nil (sep : Char) (l : List Char) : splitOnChar sep l ≠ [] := by
  cases l with
  | nil => simp [splitOnChar]
  | cons c cs =>
    simp only [splitOnChar]
    cases h : splitOnChar sep cs with
    | nil => simp
    | cons h t => dsimp; split <;> simp

theorem splitOnChar_cons (sep c : Char) (cs : List Char) :
    splitOnChar sep (c :: cs) =
      match splitOnChar sep cs with
      | [] => [[]]
      | h :: t => if c = sep then [] :: h :: t else (c :: h) :: t := rfl

theorem joinOnChar_cons₂ (sep : Char) (h : List Char) (t0 : List Char)
    (ts : List (List Char)) :
    joinOnChar sep (h :: t0 :: ts) = h ++ sep :: joinOnChar sep (t0 :: ts) := rfl

theorem joinOnChar_splitOnChar (sep : Char) (l : List Char) :
    joinOnChar sep (splitOnChar sep l) = l := by
  induction l with
  | nil => rfl
  | cons c cs ih =>
    rw [splitOnChar_cons]
    cases h : splitOnChar sep cs with
    | nil => exact absurd h (splitOnChar_ne_nil sep cs)
    | cons h0 t =>
      rw [h] at ih
      dsimp only
      by_cases hc : c = sep
      · rw [if_pos hc, joinOnChar_cons₂, ih, List.nil_append, hc]
      · rw [if_neg hc]
        cases t with
        | nil =>
          show c :: h0 = c :: cs
          have : h0 = cs := ih
          rw [this]
        | cons t0 ts =>
          rw [joinOnChar_cons₂]
          have : (c :: h0) ++ sep :: joinOnChar sep (t0 :: ts) =
              c :: (h0 ++ sep :: joinOnChar sep (t0 :: ts)) := rfl
          rw [this, ← joinOnChar_cons₂, ih]

/-- Every piece produced by `splitOnChar` is free of the separator. -/
theorem splitOnChar_not_mem (sep : Char) (l : List Char) :
    ∀ p ∈ splitOnChar sep l, sep ∉ p := by
  induction l with
  | nil => intro p hp; simp [splitOnChar] at hp; simp [hp]
  | cons c cs ih =>
    intro p hp
    rw [splitOnChar_cons] at hp
    cases h : splitOnChar sep cs with
    | nil => exact absurd h (splitOnChar_ne_nil sep cs)
    | cons h0 t =>
      rw [h] at hp
      rw [h] at ih
      dsimp only at hp
      by_cases hc : c = sep
      · rw [if_pos hc] at hp
        rcases List.mem_cons.1 hp with hp0 | hp1
        · subst hp0; simp
        · exact ih p hp1
      · rw [if_neg hc] at hp
        rcases List.mem_cons.1 hp with hp0 | hp1
        · subst hp0
          intro hmem
          rcases List.mem_cons.1 hmem with h1 | h2
          · exact hc h1.symm
          · exact ih h0 (List.mem_cons_self h0 t) h2
        · exact ih p (List.mem_cons.2 (Or.inr hp1))

/-- Python `str.split('.')` on a Lean `String`. -/
def splitDot (s : String) : List String :=
  (splitOnChar '.' s.toList).map (fun l => ⟨l⟩)

/-- Python `name.split('.')[-1]`: the substring after the last dot. -/
def shortName (s : String) : String :=
  ⟨(splitOnChar '.' s.toList).getLastD []⟩

/-- Python `pathlib.Path(p).name`: the substring after the last slash. -/
def fileName (p : String) : String :=
  ⟨(splitOnChar '/' p.toList).getLastD []⟩

/-- Python `str.split("::")` specialised to the node-id separator. -/
def splitColonsAux : List Char → List Char → List (List Char)
  | acc, ':' :: ':' :: rest => acc.reverse :: splitColonsAux [] rest
  | acc, c :: rest => splitColonsAux (c :: acc) rest
  | acc, [] => [acc.reverse]

/-- Python `node.split("::")`. -/
def splitColons (s : String) : List String :=
  (splitColonsAux [] s.toList).map (fun l => ⟨l⟩)

/-- Python `str.lower()` (ASCII case folding, as used on identifiers). -/
def lowerStr (s : String) : String :=
  ⟨s.toList.map Char.toLower⟩

theorem getLastD_mem_cons {α : Type} (h0 : α) (t : List α) (d : α) :
    (h0 :: t).getLastD d ∈ h0 :: t := by
  induction t generalizing h0 with
  | nil => simp
  | cons a t ih =>
    rw [List.getLastD_cons]
    exact List.mem_cons.2 (Or.inr (ih a))

/-- The short name of a string never contains a dot. -/
theorem shortName_no_dot (s : String) : '.' ∉ (shortName s).toList := by
  unfold shortName
  have h := splitOnChar_not_mem '.' s.toList
  have hne := splitOnChar_ne_nil '.' s.toList
  cases hsp : splitOnChar '.' s.toList with
  | nil => exact absurd hsp hne
  | cons h0 t =>
    have hmem := getLastD_mem_cons h0 t []
    exact h _ (hsp ▸ hmem)

/-- A string whose character list has no dot is its own short name. -/
theorem shortName_eq_self (s : String) (h : '.' ∉ s.toList) : shortName s = s := by
  unfold shortName
  have : splitOnChar '.' s.toList = [s.toList] := by
    cases s with
    | mk l =>
      show splitOnChar '.' l = [l]
      induction l with
      | nil => rfl
      | cons c cs ih =>
        have hc : c ≠ '.' := by
          intro hc; exact h (by simp [String.toList, hc])
        have hcs : '.' ∉ cs := by
          intro hm; exact h (by simp [String.toList]; right; exact hm)
        have ihcs := ih (by simpa [String.toList] using hcs)
        simp only [splitOnChar, ihcs]
        simp [hc]
  rw [this]
  cases s; rfl

/-! ## Data model (`models.py`)

Only the fields the claims depend on are carried; paths are strings. -/

/-- `models.Symbol`: a declared function, method or class. -/
structure Symbol where
  name : String
  type : String
  file_path : String
  line_number : Nat
  decorators : List String := []
  deriving DecidableEq, Repr, Inhabited

/-- `models.CallRelation`: one textual call site. -/
structure CallRelation where
  caller_symbol : Symbol
  callee_name : String
  line_number : Nat := 0
  callee_file : Option String := none
  deriving DecidableEq, Repr, Inhabited

/-- `models.ExecutionFlow`: an execution flow through the system. -/
structure ExecutionFlow where
  name : String
  entry_point : String
  steps : List String
  files_involved : Finset String
  description : String
  deriving DecidableEq

/-- A directed graph as built by `networkx.DiGraph`: node-id list in
insertion order and edge list in insertion order, both duplicate-free. -/
structure Graph where
  nodes : List String
  edges : List (String × String)
  deriving DecidableEq, Repr

/-- Well-formedness of a `networkx` digraph: node and edge collections are
duplicate-free and every edge endpoint is a node (guaranteed by `add_node` /
`add_edge`, which skip duplicates and insert missing endpoints). -/
def Graph.WF (g : Graph) : Prop :=
  g.nodes.Nodup ∧ g.edges.Nodup ∧ ∀ e ∈ g.edges, e.1 ∈ g.nodes ∧ e.2 ∈ g.nodes

instance (g : Graph) : Decidable g.WF := by
  unfold Graph.WF; infer_instance

/-! ## Symbol index (`GraphExporter._build_networkx_graph`, lines 25-32)

The source builds one dict, appending each symbol under its base name
(`symbol.name.split('.')[-1]`) and then under its full name.
`indexLookup syms k` is the candidate list the finished dict holds at key
`k` (the key is present iff the list is non-empty, since `setdefault` is
always followed by an `append`). -/

def indexLookup (syms : List Symbol) (k : String) : List Symbol :=
  syms.foldl (fun acc s =>
    let acc1 := if shortName s.name = k then acc ++ [s] else acc
    if s.name = k then acc1 ++ [s] else acc1) []

/-- `GraphExporter._node_id`: `f"{symbol.file_path.name}::{symbol.name}"`. -/
def node_id (s : Symbol) : String :=
  fileName s.file_path ++ "::" ++ s.name

/-! ## Call resolution (`GraphExporter._build_networkx_graph`, lines 65-109)

The three resolution strategies, returning the callee's node id. -/

/-- Strategies 1-3 of the resolver, as in the source. -/
def resolveCallee (syms : List Symbol) (call : CallRelation) : Option String :=
  let calleeBase := shortName call.callee_name
  match indexLookup syms calleeBase with
  | c0 :: rest =>
    -- Strategy 1: normalized-name match; prefer the caller's own file.
    match (c0 :: rest).filter
        (fun s => s.file_path = call.caller_symbol.file_path) with
    | t :: _ => some (node_id t)
    | [] => some (node_id c0)
  | [] =>
    match indexLookup syms call.callee_name with
    | c0 :: rest =>
      -- Strategy 2: raw-text match; prefer a class.
      match (c0 :: rest).filter (fun s => s.type = "class") with
      | t :: _ => some (node_id t)
      | [] => some (node_id c0)
    | [] =>
      -- Strategy 3: Owner.Member key when the raw text has exactly one dot.
      match splitDot call.callee_name with
      | [p0, p1] =>
        match indexLookup syms (p0 ++ "." ++ p1) with
        | c0 :: _ => some (node_id c0)
        | [] => none
      | _ => none

/-- The resolver with strategy 3 removed (the refinement candidate of C9,
following the observation that strategy 3's key is the raw callee text). -/
def resolveCalleeNoStrategy3 (syms : List Symbol) (call : CallRelation) :
    Option String :=
  let calleeBase := shortName call.callee_name
  match indexLookup syms calleeBase with
  | c0 :: rest =>
    match (c0 :: rest).filter
        (fun s => s.file_path = call.caller_symbol.file_path) with
    | t :: _ => some (node_id t)
    | [] => some (node_id c0)
  | [] =>
    match indexLookup syms call.callee_name with
    | c0 :: rest =>
      match (c0 :: rest).filter (fun s => s.type = "class") with
      | t :: _ => some (node_id t)
      | [] => some (node_id c0)
    | [] => none

/-! ## Graph construction (`GraphExporter._build_networkx_graph`) -/

/-- `networkx.DiGraph.add_node` (attributes are irrelevant to the claims;
re-adding an existing node only updates attributes). -/
def addNodeG (g : Graph) (n : String) : Graph :=
  if n ∈ g.nodes then g else { g with nodes := g.nodes ++ [n] }

/-- `networkx.DiGraph.add_edge`: inserts missing endpoints, then the edge
(duplicate edges only update attributes). -/
def addEdgeG (g : Graph) (a b : String) : Graph :=
  let g1 := addNodeG (addNodeG g a) b
  if (a, b) ∈ g1.edges then g1 else { g1 with edges := g1.edges ++ [(a, b)] }

/-- Lines 34-54: one node per symbol. -/
def buildNodes (syms : List Symbol) : Graph :=
  syms.foldl (fun g s => addNodeG g (node_id s)) ⟨[], []⟩

/-- Lines 61-122: fold the resolved calls into edges.  A node id is never
the empty string, so Python's truthiness test on `callee_id` is `isSome`. -/
def addCallEdge (syms : List Symbol) (g : Graph) (call : CallRelation) : Graph :=
  let callerId := node_id call.caller_symbol
  match resolveCallee syms call with
  | some calleeId =>
    if callerId ∈ g.nodes ∧ calleeId ∈ g.nodes then addEdgeG g callerId calleeId
    else g
  | none => g

/-- The graph as built before any pruning pass (`_build_networkx_graph`
up to line 122). -/
def buildGraph (syms : List Symbol) (calls : List CallRelation) : Graph :=
  calls.foldl (addCallEdge syms) (buildNodes syms)

/-! ## Graph pruning (`_build_networkx_graph` lines 132-144,
`_remove_builtin_noise`)

`networkx.remove_nodes_from` drops the listed nodes and their incident
edges; `nx.isolates` lists the degree-zero nodes;
`nx.weakly_connected_components` yields the components in order of first
node appearance, and `max(..., key=len)` picks the first largest. -/

/-- `G.remove_nodes_from(rm)`. -/
def removeNodesG (g : Graph) (rm : List String) : Graph :=
  ⟨g.nodes.filter (fun n => decide (n ∉ rm)),
   g.edges.filter (fun e => decide (e.1 ∉ rm) && decide (e.2 ∉ rm))⟩

/-- `GraphExporter._remove_builtin_noise`: drop nodes whose id is not among
the Symbol-derived ids. -/
def remove_builtin_noise (syms : List Symbol) (g : Graph) : Graph :=
  let valid := syms.map node_id
  removeNodesG g (g.nodes.filter (fun n => decide (n ∉ valid)))

/-- `list(nx.isolates(G))`: nodes with no incident edge. -/
def isolates (g : Graph) : List String :=
  g.nodes.filter (fun n => decide (¬ ∃ e ∈ g.edges, e.1 = n ∨ e.2 = n))

/-- Lines 135-136: remove the isolated nodes. -/
def remove_isolates (g : Graph) : Graph := removeNodesG g (isolates g)

/-- Symmetric adjacency: the edge relation with direction ignored. -/
def symAdjB (g : Graph) (a b : String) : Bool :=
  g.edges.any (fun e => (decide (e.1 = a) && decide (e.2 = b)) ||
    (decide (e.1 = b) && decide (e.2 = a)))

/-- One closure step of a node set under symmetric adjacency. -/
def expandW (g : Graph) (S : Finset String) : Finset String :=
  S ∪ g.nodes.toFinset.filter (fun n => ∃ s ∈ S, symAdjB g s n = true)

/-- The weakly connected component containing `x`: closure of `{x}` under
symmetric adjacency (reached as the fixed point of `expandW`). -/
def componentOf (g : Graph) (x : String) : Finset String :=
  (expandW g)^[g.nodes.length] {x}

/-- `list(nx.weakly_connected_components(G))`: one component per first
appearance of an uncovered node in node order. -/
def componentsList (g : Graph) : List (Finset String) :=
  g.nodes.foldl (fun acc n =>
    if acc.any (fun c => decide (n ∈ c)) then acc else acc ++ [componentOf g n]) []

/-- `G.subgraph(S)`: node-induced subgraph. -/
def subgraphG (g : Graph) (S : Finset String) : Graph :=
  ⟨g.nodes.filter (fun n => decide (n ∈ S)),
   g.edges.filter (fun e => decide (e.1 ∈ S) && decide (e.2 ∈ S))⟩

/-- Lines 139-144: keep only the largest weakly connected component
(`max(components, key=len)` keeps the first of equally-sized components);
an empty component list leaves the graph unchanged. -/
def largest_component_filter (g : Graph) : Graph :=
  match componentsList g with
  | [] => g
  | c :: cs => subgraphG g (cs.foldl (fun b x => if b.card < x.card then x else b) c)

/-- The three pruning passes of §4.4 in source order. -/
def pruneGraph (syms : List Symbol) (g : Graph) : Graph :=
  largest_component_filter (remove_isolates (remove_builtin_noise syms g))

/-! ## Entrypoint detection (`GraphExporter._detect_entrypoints`) -/

/-- `G.in_degree(n)`. -/
def inDegree (g : Graph) (n : String) : Nat :=
  (g.edges.filter (fun e => decide (e.2 = n))).length

/-- File-based signals (lines 212-215). -/
def fileBonus (fl : String) : Nat :=
  if fl = "main.py" ∨ fl = "app.py" ∨ fl = "__main__.py" then 3
  else if fl = "cli.py" ∨ fl = "server.py" ∨ fl = "run.py" then 2
  else 0

/-- Symbol-based signals (lines 218-221): note the comparison is on the
whole (lower-cased) symbol part of the node id, not on its short name. -/
def symbolBonus (sl : String) : Nat :=
  if sl = "main" ∨ sl = "run" ∨ sl = "start" then 2
  else if sl = "app" ∨ sl = "cli" ∨ sl = "server" then 1
  else 0

/-- CLI bias (lines 224-225). -/
def buildBonus (sl : String) : Nat := if sl = "build" then 3 else 0

/-- Topology signal (lines 228-229). -/
def topologyBonus (g : Graph) (n : String) : Nat :=
  if inDegree g n = 0 then 1 else 0

/-- The weighted score of one node (lines 200-229); nodes whose id does not
split into exactly two parts at `"::"` are skipped by the loop. -/
def nodeScore (g : Graph) (n : String) : Nat :=
  match splitColons n with
  | [f, s] =>
    fileBonus (lowerStr f) + symbolBonus (lowerStr s) + buildBonus (lowerStr s) +
      topologyBonus g n
  | _ => 0

/-- Lines 199-233: candidates with score ≥ 3, in node order. -/
def entrypointCandidates (g : Graph) : List (String × Nat) :=
  g.nodes.foldl (fun acc n =>
    match splitColons n with
    | [_, _] => if 3 ≤ nodeScore g n then acc ++ [(n, nodeScore g n)] else acc
    | _ => acc) []

/-- `GraphExporter._detect_entrypoints` (lines 195-246): stable sort by
score descending (Python `list.sort` is stable; `List.insertionSort` with
this relation computes the same list), keep the nodes sharing the top
score, return at most the first two. -/
def detect_entrypoints (g : Graph) : List String :=
  let sorted :=
    List.insertionSort (fun x y : String × Nat => y.2 ≤ x.2) (entrypointCandidates g)
  match sorted with
  | [] => []
  | (_, top) :: _ => ((sorted.filter (fun p => decide (p.2 = top))).map Prod.fst).take 2

/-! ## Depth filter (`GraphExporter._apply_depth_filter`, lines 155-193)

The function first determines the entry nodes (marked nodes, else detected
ones, else it returns the graph unchanged); the claims quantify over that
entry set, so the BFS-and-subgraph part (lines 169-193) is parametrised by
it here.  Each entry runs its own FIFO BFS with visited-at-enqueue marking;
`nodes_to_keep` accumulates over all entries. -/

/-- `G.successors(n)`: targets of the out-edges of `n` (unique for a
well-formed graph, since its edge list is duplicate-free). -/
def successors (g : Graph) (n : String) : List String :=
  (g.edges.filter (fun e => decide (e.1 = n))).map Prod.snd

/-- The inner `for successor in G.successors(node)` loop (lines 184-187):
append unvisited successors to the queue at depth `d + 1`, marking them
visited as they are enqueued. -/
def bfsStep (g : Graph) (n : String) (d : Nat) (queue : List (String × Nat))
    (visited : List String) : List (String × Nat) × List String :=
  (successors g n).foldl
    (fun (p : List (String × Nat) × List String) s =>
      if s ∈ p.2 then p else (p.1 ++ [(s, d + 1)], p.2 ++ [s]))
    (queue, visited)

/-- The `while queue:` loop (lines 179-187) for one entry, with explicit
fuel (the caller passes `g.nodes.length + 1`, which is shown sufficient). -/
def bfsLoop (g : Graph) (maxd : Nat) :
    Nat → List (String × Nat) → List String → List String → List String
  | 0, _, _, keep => keep
  | _ + 1, [], _, keep => keep
  | fuel + 1, (n, d) :: rest, visited, keep =>
    let keep1 := if n ∈ keep then keep else keep ++ [n]
    if d < maxd then
      let p := bfsStep g n d rest visited
      bfsLoop g maxd fuel p.1 p.2 keep1
    else
      bfsLoop g maxd fuel rest visited keep1

/-- Lines 170-187: the union over all entries of the per-entry BFS keep
sets (entries absent from the graph are skipped). -/
def depthFilterKeep (g : Graph) (entries : List String) (maxd : Nat) : List String :=
  entries.foldl (fun keep e =>
    if e ∈ g.nodes then bfsLoop g maxd (g.nodes.length + 1) [(e, 0)] [e] keep
    else keep) []

/-- Lines 189-193: the node-induced subgraph on the kept nodes. -/
def apply_depth_filter (g : Graph) (entries : List String) (maxd : Nat) : Graph :=
  let keep := depthFilterKeep g entries maxd
  ⟨g.nodes.filter (fun n => decide (n ∈ keep)),
   g.edges.filter (fun e => decide (e.1 ∈ keep) && decide (e.2 ∈ keep))⟩

/-- Specification-side distance bound: `reachInB g d x y` holds iff there
is a directed path from `x` to `y` of length at most `d`, i.e. iff the
first-seen BFS distance of `y` from `x` is at most `d`. -/
def reachInB (g : Graph) : Nat → String → String → Bool
  | 0, x, y => decide (y = x)
  | d + 1, x, y => decide (y = x) || (successors g x).any (fun s => reachInB g d s y)

/-! ## Flow analysis (`analyzer/flow_analyzer.py`) -/

/-- `FlowAnalyzer._build_call_graph`: a digraph on symbol names with one
edge per call relation (edge attributes are irrelevant here). -/
def build_call_graph (calls : List CallRelation) : Graph :=
  calls.foldl (fun g call => addEdgeG g call.caller_symbol.name call.callee_name)
    ⟨[], []⟩

/-- The mutable state of `_trace_execution_flow`'s nested `dfs`. -/
structure TraceState where
  visited : List String
  steps : List String
  files : Finset String
  deriving DecidableEq

/-- The nested `dfs` of `_trace_execution_flow` (lines 75-92).  The guard
`depth > 10` admits depths 0..10, so the top-level call uses fuel 11. -/
def traceDfs (calls : List CallRelation) (g : Graph) :
    Nat → String → TraceState → TraceState
  | 0, _, st => st
  | fuel + 1, f, st =>
    if f ∈ st.visited then st
    else
      let st1 : TraceState :=
        { visited := st.visited ++ [f]
          steps := st.steps ++ [f]
          files := calls.foldl (fun acc call =>
            if call.caller_symbol.name = f then
              let acc1 := insert call.caller_symbol.file_path acc
              match call.callee_file with
              | some cf => insert cf acc1
              | none => acc1
            else acc) st.files }
      if f ∈ g.nodes then
        (successors g f).foldl (fun st2 succ => traceDfs calls g fuel succ st2) st1
      else st1

/-- `FlowAnalyzer._trace_execution_flow` (lines 65-105). -/
def trace_execution_flow (calls : List CallRelation) (entry : String) :
    Option ExecutionFlow :=
  let g := build_call_graph calls
  if entry ∈ g.nodes then
    let st := traceDfs calls g 11 entry ⟨[], [], ∅⟩
    if 1 < st.steps.length then
      some ⟨entry ++ "_flow", entry, st.steps, st.files,
        "Execution flow starting from " ++ entry⟩
    else none
  else none

/-- `FlowAnalyzer._find_entry_functions` (lines 47-63). -/
def find_entry_functions (syms : List Symbol) : List String :=
  (syms.filter (fun s => decide (s.name = "main" ∨ s.name = "__main__" ∨
    s.name = "app" ∨ s.name = "run" ∨ s.name = "start"))).map Symbol.name ++
  (syms.filter (fun s => s.decorators.any (fun d => decide (d = "@app.route" ∨
    d = "@router.get" ∨ d = "@router.post" ∨ d = "@api.route" ∨
    d = "@bp.route")))).map Symbol.name

/-- Contiguous-substring test on character lists. -/
def substrB (needle : List Char) : List Char → Bool
  | [] => needle.isPrefixOf []
  | c :: cs => needle.isPrefixOf (c :: cs) || substrB needle cs

/-- Case-insensitive substring test, Python `word in name.lower()`. -/
def nameMatches (words : List String) (s : Symbol) : Bool :=
  words.any (fun w => substrB w.toList (lowerStr s.name).toList)

def crudWords : List String :=
  ["create", "read", "get", "update", "delete", "save", "find"]

def authWords : List String :=
  ["login", "logout", "authenticate", "authorize", "verify",
   "validate", "token", "session", "permission"]

/-- The CRUD-matching symbol names, in collection order (lines 125-131). -/
def crudFunctions (syms : List Symbol) : List String :=
  (syms.filter (nameMatches crudWords)).map Symbol.name

/-- The auth-matching symbol names, in collection order (lines 146-153). -/
def authFunctions (syms : List Symbol) : List String :=
  (syms.filter (nameMatches authWords)).map Symbol.name

/-- `FlowAnalyzer._detect_crud_pattern`. -/
def detect_crud_pattern (syms : List Symbol) : Option ExecutionFlow :=
  if 3 ≤ (crudFunctions syms).length then
    some ⟨"crud_operations", "CRUD Operations", crudFunctions syms, ∅,
      "CRUD operations detected in the codebase"⟩
  else none

/-- `FlowAnalyzer._detect_auth_pattern`. -/
def detect_auth_pattern (syms : List Symbol) : Option ExecutionFlow :=
  if 2 ≤ (authFunctions syms).length then
    some ⟨"authentication_flow", "Authentication System", authFunctions syms, ∅,
      "Authentication and authorization flow"⟩
  else none

/-- `FlowAnalyzer._detect_common_patterns`. -/
def detect_common_patterns (syms : List Symbol) : List ExecutionFlow :=
  (detect_crud_pattern syms).toList ++ (detect_auth_pattern syms).toList

/-- `FlowAnalyzer.analyze_flows`: flows traced from the entry functions,
followed by the detected pattern flows. -/
def analyze_flows (syms : List Symbol) (calls : List CallRelation) :
    List ExecutionFlow :=
  (find_entry_functions syms).filterMap (trace_execution_flow calls) ++
    detect_common_patterns syms

/-! ## Complexity metric (`analyzer/metrics_analyzer.py`)

Python floats are modelled by `ℚ`; every arithmetic step taken by the
claims below (`0.1 * 0.0`, `min` with `100`) is exact in both systems. -/

/-- The adjacency dict built by `_calculate_max_call_depth` (lines 82-88):
caller name to callee-name list, insertion-ordered. -/
def addCalleeM (acc : List (String × List String)) (caller callee : String) :
    List (String × List String) :=
  if acc.any (fun p => decide (p.1 = caller)) then
    acc.map (fun p => if p.1 = caller then (p.1, p.2 ++ [callee]) else p)
  else acc ++ [(caller, [callee])]

def call_graph_map (calls : List CallRelation) : List (String × List String) :=
  calls.foldl (fun acc c => addCalleeM acc c.caller_symbol.name c.callee_name) []

/-- The nested `dfs` of `_calculate_max_call_depth` (lines 93-103): each
branch descends with its own copy of the visited set.  Recursion depth is
bounded by the number of distinct callers, so the fuel passed by
`calculate_max_call_depth` is sufficient. -/
def metricsDfs (m : List (String × List String)) :
    Nat → String → List String → Nat → Nat
  | 0, _, _, depth => depth
  | fuel + 1, func, visited, depth =>
    if func ∈ visited then depth
    else
      match m.find? (fun p => decide (p.1 = func)) with
      | none => depth
      | some entry =>
        entry.2.foldl
          (fun localMax callee =>
            max localMax (metricsDfs m fuel callee (visited ++ [func]) (depth + 1)))
          depth

/-- `MetricsAnalyzer._calculate_max_call_depth`. -/
def calculate_max_call_depth (calls : List CallRelation) : Nat :=
  let m := call_graph_map calls
  m.foldl (fun maxDepth p => max maxDepth (metricsDfs m (m.length + 1) p.1 [] 0)) 0

/-- `MetricsAnalyzer.calculate_complexity`. -/
def calculate_complexity (syms : List Symbol) (calls : List CallRelation) : ℚ :=
  if syms = [] then 0
  else
    let base : ℚ := min 100 ((syms.length + calls.length : ℚ) / 10)
    let depthFactor : ℚ := min 2 ((calculate_max_call_depth calls : ℚ) / 5)
    min 100 (base * depthFactor)

/-! # Claims -/

/-- C6: for the call-relation collection holding exactly the cyclic chain
`a→b→c→a`, tracing the execution flow from entry symbol `a` terminates and
emits the flow `a_flow` whose step list is exactly `[a, b, c]` — each name
visited once, `a` not revisited despite the cycle. -/
theorem cycle_termination_flow :
    trace_execution_flow
      [⟨⟨"a", "function", "m.py", 1, []⟩, "b", 1, none⟩,
       ⟨⟨"b", "function", "m.py", 2, []⟩, "c", 2, none⟩,
       ⟨⟨"c", "function", "m.py", 3, []⟩, "a", 3, none⟩] "a" =
      some ⟨"a_flow", "a", ["a", "b", "c"], {"m.py"},
        "Execution flow starting from a"⟩ := by decide

/-- C8: the complexity scorer returns exactly `0.0` on an empty symbol
collection (whatever the call relations), and exactly `0.0` for any
one-symbol collection with zero call relations (the maximum call depth is
then `0`, so the depth factor vanishes). -/
theorem complexity_floor :
    (∀ calls : List CallRelation, calculate_complexity [] calls = 0) ∧
    (∀ s : Symbol, calculate_complexity [s] [] = 0) := by
  constructor
  · intro calls
    simp [calculate_complexity]
  · intro s
    simp [calculate_complexity, calculate_max_call_depth, call_graph_map]

/-- A two-piece dot split rejoins to the original string. -/
theorem splitDot_pair (s p0 p1 : String) (h : splitDot s = [p0, p1]) :
    p0 ++ "." ++ p1 = s := by
  unfold splitDot at h
  cases hsp : splitOnChar '.' s.toList with
  | nil => exact absurd hsp (splitOnChar_ne_nil _ _)
  | cons l0 t =>
    rw [hsp] at h
    cases t with
    | nil => simp at h
    | cons l1 ts =>
      cases ts with
      | cons u us => simp at h
      | nil =>
        simp only [List.map_cons, List.map_nil] at h
        have h0 : (⟨l0⟩ : String) = p0 := by injection h
        have h1 : (⟨l1⟩ : String) = p1 := by
          have := h
          injection this with ha hb
          injection hb
        have hj := joinOnChar_splitOnChar '.' s.toList
        rw [hsp] at hj
        subst h0
        subst h1
        have hjoin : joinOnChar '.' [l0, l1] = l0 ++ '.' :: l1 := rfl
        rw [hjoin] at hj
        cases s with
        | mk l =>
          have : ({ data := l0 } ++ "." ++ { data := l1 } : String) =
              ⟨l0 ++ '.' :: l1⟩ := by simp [String.ext_iff]
          rw [this]
          exact congrArg String.mk hj

/-- C9: strategy 3 of the resolver is dead code — when strategies 1 and 2
both fail, the `Owner.Member` key of strategy 3 equals the raw callee text
already found absent by strategy 2, so the resolver with strategy 3
removed returns the same result on every input. -/
theorem resolver_strategy3_dead_code (syms : List Symbol) (call : CallRelation) :
    resolveCallee syms call = resolveCalleeNoStrategy3 syms call := by
  unfold resolveCallee resolveCalleeNoStrategy3
  dsimp only
  cases h1 : indexLookup syms (shortName call.callee_name) with
  | cons c0 rest => rfl
  | nil =>
    cases h2 : indexLookup syms call.callee_name with
    | cons c0 rest => rfl
    | nil =>
      cases h3 : splitDot call.callee_name with
      | nil => rfl
      | cons p0 t =>
        cases t with
        | nil => rfl
        | cons p1 ts =>
          cases ts with
          | cons u us => rfl
          | nil =>
            have hkey : p0 ++ "." ++ p1 = call.callee_name := splitDot_pair _ _ _ h3
            dsimp only
            rw [hkey, h2]

/-- C10: for any inputs, the flow-analysis output contains the pattern flow
`crud_operations` whenever at least 3 symbol names contain a CRUD word, and
`authentication_flow` whenever at least 2 symbol names contain an auth word
(both case-insensitively); the step lists are the name-matched symbol name
lists — computed from the symbol collection alone, for every call-relation
collection — and the files-involved sets are empty. -/
theorem pattern_flows_in_output (syms : List Symbol) (calls : List CallRelation) :
    (3 ≤ (crudFunctions syms).length →
      (⟨"crud_operations", "CRUD Operations", crudFunctions syms, ∅,
        "CRUD operations detected in the codebase"⟩ : ExecutionFlow) ∈
        analyze_flows syms calls) ∧
    (2 ≤ (authFunctions syms).length →
      (⟨"authentication_flow", "Authentication System", authFunctions syms, ∅,
        "Authentication and authorization flow"⟩ : ExecutionFlow) ∈
        analyze_flows syms calls) := by
  constructor
  · intro h
    apply List.mem_append_right
    unfold detect_common_patterns detect_crud_pattern
    rw [if_pos h]
    exact List.mem_append_left _ (by simp)
  · intro h
    apply List.mem_append_right
    unfold detect_common_patterns detect_auth_pattern
    rw [if_pos h]
    exact List.mem_append_right _ (by simp)

/-- Concrete symbol collection with three CRUD-matching and two
auth-matching names, used to witness `pattern_flows_in_output`. -/
def patternSyms : List Symbol :=
  [⟨"create_user", "function", "db.py", 1, []⟩,
   ⟨"get_user", "function", "db.py", 5, []⟩,
   ⟨"delete_user", "function", "db.py", 9, []⟩,
   ⟨"login", "function", "auth.py", 1, []⟩,
   ⟨"logout", "function", "auth.py", 7, []⟩]

/-- Witness for C10 at a concrete symbol collection. -/
theorem pattern_flows_in_output_witness :
    (3 ≤ (crudFunctions patternSyms).length ∧
      (⟨"crud_operations", "CRUD Operations", crudFunctions patternSyms, ∅,
        "CRUD operations detected in the codebase"⟩ : ExecutionFlow) ∈
        analyze_flows patternSyms []) ∧
    (2 ≤ (authFunctions patternSyms).length ∧
      (⟨"authentication_flow", "Authentication System", authFunctions patternSyms, ∅,
        "Authentication and authorization flow"⟩ : ExecutionFlow) ∈
        analyze_flows patternSyms []) :=
  ⟨⟨by decide, (pattern_flows_in_output patternSyms []).1 (by decide)⟩,
   ⟨by decide, (pattern_flows_in_output patternSyms []).2 (by decide)⟩⟩

/-- The per-symbol contribution to the candidate list at key `k`: the
short-name entry, then the qualified-name entry. -/
def indexEntries (k : String) (s : Symbol) : List Symbol :=
  (if shortName s.name = k then [s] else []) ++ (if s.name = k then [s] else [])

theorem indexLookup_eq_bind (syms : List Symbol) (k : String) :
    indexLookup syms k = syms.flatMap (indexEntries k) := by
  have hgo : ∀ (l : List Symbol) (init : List Symbol),
      l.foldl (fun acc s =>
        let acc1 := if shortName s.name = k then acc ++ [s] else acc
        if s.name = k then acc1 ++ [s] else acc1) init =
      init ++ l.flatMap (indexEntries k) := by
    intro l
    induction l with
    | nil => intro init; simp
    | cons s ss ih =>
      intro init
      rw [List.foldl_cons, ih, List.flatMap_cons]
      unfold indexEntries
      dsimp only
      have e2 : ∀ acc : List Symbol,
          (if s.name = k then acc ++ [s] else acc) =
            acc ++ (if s.name = k then [s] else []) := by
        intro acc; split <;> simp
      have e1 : (if shortName s.name = k then init ++ [s] else init) =
          init ++ (if shortName s.name = k then [s] else []) := by
        split <;> simp
      rw [e2, e1]
      simp [List.append_assoc]
  exact hgo syms []

/-- Lexicographic comparison of character lists (string comparison). -/
def listLtB : List Char → List Char → Bool
  | [], [] => false
  | [], _ :: _ => true
  | _ :: _, [] => false
  | a :: as, b :: bs =>
    if a.toNat < b.toNat then true
    else if b.toNat < a.toNat then false
    else listLtB as bs

/-- Strict lexicographic order on path strings. -/
def pathLt (a b : String) : Prop := listLtB a.toList b.toList = true

instance (a b : String) : Decidable (pathLt a b) := by
  unfold pathLt; infer_instance

/-- Stable ordering by file path then declaration line (the aggregation
order the specification requires of the candidate lists). -/
def sortedByFileLine (l : List Symbol) : Prop :=
  List.Pairwise (fun a b : Symbol =>
    pathLt a.file_path b.file_path ∨
      (a.file_path = b.file_path ∧ a.line_number ≤ b.line_number)) l

instance (l : List Symbol) : Decidable (sortedByFileLine l) := by
  unfold sortedByFileLine; infer_instance

/-- C3 counterexample: two same-named symbols handed over in an order that
is not sorted by file path leave the candidate list at key `f` in that
unsorted order (`b.py` entries before `a.py` entries) — no deterministic
file-then-line aggregation order is applied before indexing. -/
theorem index_order_counterexample :
    ¬ sortedByFileLine (indexLookup
      [⟨"f", "function", "b.py", 1, []⟩, ⟨"f", "function", "a.py", 1, []⟩] "f") := by
  decide

/-- C3 amended: every candidate list of the index is in symbol-collection
insertion order — each symbol contributes its short-name entry and then its
qualified-name entry, in collection order; the merge applies no re-sorting
by file path or declaration line, so index order depends on the order in
which files were parsed. -/
theorem index_order_is_collection_order (syms : List Symbol) (k : String) :
    indexLookup syms k = syms.flatMap (indexEntries k) :=
  indexLookup_eq_bind syms k

/-- C4 counterexample: the node of method `Worker.run` — whose symbol short
name is `run` — receives no symbol-name points: the detector compares the
whole lower-cased symbol part `worker.run` against `{main, run, start}`, so
the node's total score is 1 (its in-degree point only), not the claimed 3
or more. -/
theorem short_name_bonus_counterexample :
    shortName "Worker.run" = "run" ∧
    symbolBonus (lowerStr "Worker.run") = 0 ∧
    nodeScore ⟨["worker.py::Worker.run"], []⟩ "worker.py::Worker.run" = 1 := by
  decide

/-- C4 amended: the +2 symbol-name points are granted exactly when the whole
symbol part of the node id, lower-cased, is one of `main`, `run`, `start`
(a method such as `Worker.run` therefore does not receive them). -/
theorem symbol_bonus_full_name (g : Graph) (n f s : String)
    (hsplit : splitColons n = [f, s])
    (hs : lowerStr s = "main" ∨ lowerStr s = "run" ∨ lowerStr s = "start") :
    nodeScore g n =
      fileBonus (lowerStr f) + 2 + buildBonus (lowerStr s) + topologyBonus g n := by
  unfold nodeScore
  rw [hsplit]
  dsimp only
  have h2 : symbolBonus (lowerStr s) = 2 := by
    unfold symbolBonus
    rcases hs with h | h | h <;> rw [h] <;> simp
  rw [h2]

/-- Witness for `symbol_bonus_full_name` at node `main.py::run`. -/
theorem symbol_bonus_full_name_witness :
    splitColons "main.py::run" = ["main.py", "run"] ∧
    (lowerStr "run" = "main" ∨ lowerStr "run" = "run" ∨ lowerStr "run" = "start") ∧
    nodeScore ⟨["main.py::run"], []⟩ "main.py::run" =
      fileBonus (lowerStr "main.py") + 2 + buildBonus (lowerStr "run") +
        topologyBonus ⟨["main.py::run"], []⟩ "main.py::run" :=
  ⟨by decide, by decide,
    symbol_bonus_full_name ⟨["main.py::run"], []⟩ "main.py::run" "main.py" "run"
      (by decide) (by decide)⟩

/-! ### C1: resolution soundness -/

theorem mem_of_mem_indexLookup (syms : List Symbol) (k : String) (s : Symbol)
    (h : s ∈ indexLookup syms k) :
    s ∈ syms ∧ (shortName s.name = k ∨ s.name = k) := by
  rw [indexLookup_eq_bind] at h
  rcases List.mem_flatMap.1 h with ⟨t, ht, hst⟩
  unfold indexEntries at hst
  rcases List.mem_append.1 hst with h1 | h1 <;> constructor
  · split at h1
    · rcases List.mem_singleton.1 h1 with rfl; exact ht
    · simp at h1
  · split at h1
    · rcases List.mem_singleton.1 h1 with rfl; left; assumption
    · simp at h1
  · split at h1
    · rcases List.mem_singleton.1 h1 with rfl; exact ht
    · simp at h1
  · split at h1
    · rcases List.mem_singleton.1 h1 with rfl; right; assumption
    · simp at h1

/-- If the key is dot-free (as every short name is), every candidate stored
under it has that key as its short name. -/
theorem shortName_of_mem_indexLookup (syms : List Symbol) (k : String)
    (hk : '.' ∉ k.toList) (s : Symbol) (h : s ∈ indexLookup syms k) :
    s ∈ syms ∧ shortName s.name = k := by
  obtain ⟨hmem, hor⟩ := mem_of_mem_indexLookup syms k s h
  refine ⟨hmem, ?_⟩
  rcases hor with h1 | h1
  · exact h1
  · rw [h1]; exact shortName_eq_self k hk

theorem indexLookup_all_eq (syms : List Symbol) (k : String) (u : Symbol)
    (hk : '.' ∉ k.toList)
    (huniq : syms.filter (fun s => decide (shortName s.name = k)) = [u]) :
    indexLookup syms k ≠ [] ∧ ∀ s ∈ indexLookup syms k, s = u := by
  have humem : u ∈ syms ∧ shortName u.name = k := by
    have : u ∈ syms.filter (fun s => decide (shortName s.name = k)) := by
      rw [huniq]; exact List.mem_singleton.2 rfl
    have h2 := List.mem_filter.1 this
    exact ⟨h2.1, of_decide_eq_true h2.2⟩
  constructor
  · intro hnil
    have : u ∈ indexLookup syms k := by
      rw [indexLookup_eq_bind]
      refine List.mem_flatMap.2 ⟨u, humem.1, ?_⟩
      unfold indexEntries
      exact List.mem_append.2 (Or.inl (by rw [if_pos humem.2]; exact List.mem_singleton.2 rfl))
    rw [hnil] at this
    exact absurd this (List.not_mem_nil u)
  · intro s hs
    obtain ⟨hmem, hsn⟩ := shortName_of_mem_indexLookup syms k hk s hs
    have : s ∈ syms.filter (fun t => decide (shortName t.name = k)) :=
      List.mem_filter.2 ⟨hmem, decide_eq_true hsn⟩
    rw [huniq] at this
    exact List.mem_singleton.1 this

theorem mem_nodes_addNodeG_self (g : Graph) (n : String) : n ∈ (addNodeG g n).nodes := by
  unfold addNodeG
  split
  · assumption
  · simp

theorem mem_nodes_addNodeG_of (g : Graph) (n m : String) (h : m ∈ g.nodes) :
    m ∈ (addNodeG g n).nodes := by
  unfold addNodeG
  split
  · exact h
  · simp [h]

theorem foldl_addNode_nodes_mono (l : List Symbol) (g : Graph) (m : String)
    (h : m ∈ g.nodes) :
    m ∈ (l.foldl (fun g s => addNodeG g (node_id s)) g).nodes := by
  induction l generalizing g with
  | nil => exact h
  | cons s ss ih => exact ih _ (mem_nodes_addNodeG_of _ _ _ h)

theorem mem_nodes_buildNodes (syms : List Symbol) (s : Symbol) (h : s ∈ syms) :
    node_id s ∈ (buildNodes syms).nodes := by
  unfold buildNodes
  have : ∀ (l : List Symbol) (g : Graph), s ∈ l →
      node_id s ∈ (l.foldl (fun g t => addNodeG g (node_id t)) g).nodes := by
    intro l
    induction l with
    | nil => intro g hg; exact absurd hg (List.not_mem_nil s)
    | cons t ts ih =>
      intro g hg
      rcases List.mem_cons.1 hg with rfl | hg
      · exact foldl_addNode_nodes_mono ts _ _ (mem_nodes_addNodeG_self g (node_id s))
      · exact ih _ hg
  exact this syms _ h

theorem mem_edges_addEdgeG_self (g : Graph) (a b : String) :
    (a, b) ∈ (addEdgeG g a b).edges := by
  unfold addEdgeG
  dsimp only
  split
  · assumption
  · simp

theorem addEdgeG_nodes_mono (g : Graph) (a b m : String) (h : m ∈ g.nodes) :
    m ∈ (addEdgeG g a b).nodes := by
  unfold addEdgeG
  dsimp only
  split <;> exact mem_nodes_addNodeG_of _ _ _ (mem_nodes_addNodeG_of _ _ _ h)

theorem addEdgeG_edges_mono (g : Graph) (a b : String) (e : String × String)
    (h : e ∈ g.edges) : e ∈ (addEdgeG g a b).edges := by
  unfold addEdgeG
  dsimp only
  have he : e ∈ (addNodeG (addNodeG g a) b).edges := by
    unfold addNodeG
    split <;> split <;> exact h
  split
  · exact he
  · simp [he]

theorem addCallEdge_nodes_mono (syms : List Symbol) (g : Graph) (c : CallRelation)
    (m : String) (h : m ∈ g.nodes) : m ∈ (addCallEdge syms g c).nodes := by
  unfold addCallEdge
  cases resolveCallee syms c with
  | none => exact h
  | some cid =>
    dsimp only
    split
    · exact addEdgeG_nodes_mono _ _ _ _ h
    · exact h

theorem addCallEdge_edges_mono (syms : List Symbol) (g : Graph) (c : CallRelation)
    (e : String × String) (h : e ∈ g.edges) : e ∈ (addCallEdge syms g c).edges := by
  unfold addCallEdge
  cases resolveCallee syms c with
  | none => exact h
  | some cid =>
    dsimp only
    split
    · exact addEdgeG_edges_mono _ _ _ _ h
    · exact h

theorem foldl_addCallEdge_edges_mono (syms : List Symbol) (calls : List CallRelation)
    (g : Graph) (e : String × String) (h : e ∈ g.edges) :
    e ∈ (calls.foldl (addCallEdge syms) g).edges := by
  induction calls generalizing g with
  | nil => exact h
  | cons c cs ih => exact ih _ (addCallEdge_edges_mono _ _ _ _ h)

theorem edge_in_foldl_addCallEdge (syms : List Symbol) (calls : List CallRelation)
    (c : CallRelation) (cid : String) (hc : c ∈ calls) (g : Graph)
    (hcaller : node_id c.caller_symbol ∈ g.nodes)
    (hres : resolveCallee syms c = some cid) (hcid : cid ∈ g.nodes) :
    (node_id c.caller_symbol, cid) ∈ (calls.foldl (addCallEdge syms) g).edges := by
  induction calls generalizing g with
  | nil => exact absurd hc (List.not_mem_nil c)
  | cons c0 cs ih =>
    rcases List.mem_cons.1 hc with rfl | hc
    · have hstep : (node_id c.caller_symbol, cid) ∈ (addCallEdge syms g c).edges := by
        unfold addCallEdge
        rw [hres]
        dsimp only
        rw [if_pos ⟨hcaller, hcid⟩]
        exact mem_edges_addEdgeG_self _ _ _
      exact foldl_addCallEdge_edges_mono syms cs _ _ hstep
    · exact ih hc _ (addCallEdge_nodes_mono _ _ _ _ hcaller)
        (addCallEdge_nodes_mono _ _ _ _ hcid)

/-- C1: resolution soundness — for every symbol collection and every call
reference whose caller symbol is in the collection, if the normalized
callee text (substring after the last dot) matches exactly one candidate
symbol by short name, the built (pre-pruning) graph has a directed edge
from the caller's node id to that unique candidate's node id. -/
theorem resolution_soundness (syms : List Symbol) (calls : List CallRelation)
    (c : CallRelation) (u : Symbol) (hc : c ∈ calls)
    (hcaller : c.caller_symbol ∈ syms)
    (huniq : syms.filter
      (fun s => decide (shortName s.name = shortName c.callee_name)) = [u]) :
    (node_id c.caller_symbol, node_id u) ∈ (buildGraph syms calls).edges := by
  obtain ⟨hne, hall⟩ :=
    indexLookup_all_eq syms (shortName c.callee_name) u (shortName_no_dot _) huniq
  have hu : u ∈ syms := by
    have : u ∈ syms.filter
        (fun s => decide (shortName s.name = shortName c.callee_name)) := by
      rw [huniq]; exact List.mem_singleton.2 rfl
    exact (List.mem_filter.1 this).1
  have hres : resolveCallee syms c = some (node_id u) := by
    unfold resolveCallee
    dsimp only
    cases hl : indexLookup syms (shortName c.callee_name) with
    | nil => exact absurd hl hne
    | cons c0 rest =>
      dsimp only
      cases hf : (c0 :: rest).filter
          (fun s => decide (s.file_path = c.caller_symbol.file_path)) with
      | nil =>
        have hc0 : c0 = u := hall c0 (by rw [hl]; exact List.mem_cons_self c0 rest)
        exact congrArg (fun s => some (node_id s)) hc0
      | cons t ts =>
        have ht : t ∈ c0 :: rest :=
          List.mem_of_mem_filter (by rw [hf]; exact List.mem_cons_self t ts)
        have htu : t = u := hall t (by rw [hl]; exact ht)
        exact congrArg (fun s => some (node_id s)) htu
  unfold buildGraph
  exact edge_in_foldl_addCallEdge syms calls c (node_id u) hc _
    (mem_nodes_buildNodes syms _ hcaller) hres (mem_nodes_buildNodes syms u hu)

/-- Witness for `resolution_soundness` at a two-symbol collection. -/
theorem resolution_soundness_witness :
    (⟨⟨"caller", "function", "a.py", 1, []⟩, "callee", 2, none⟩ : CallRelation) ∈
      [(⟨⟨"caller", "function", "a.py", 1, []⟩, "callee", 2, none⟩ : CallRelation)] ∧
    (⟨"caller", "function", "a.py", 1, []⟩ : Symbol) ∈
      [(⟨"caller", "function", "a.py", 1, []⟩ : Symbol),
       ⟨"callee", "function", "b.py", 1, []⟩] ∧
    ([(⟨"caller", "function", "a.py", 1, []⟩ : Symbol),
      ⟨"callee", "function", "b.py", 1, []⟩].filter
        (fun s => decide (shortName s.name = shortName "callee")) =
      [⟨"callee", "function", "b.py", 1, []⟩]) ∧
    (node_id ⟨"caller", "function", "a.py", 1, []⟩,
      node_id ⟨"callee", "function", "b.py", 1, []⟩) ∈
      (buildGraph
        [⟨"caller", "function", "a.py", 1, []⟩, ⟨"callee", "function", "b.py", 1, []⟩]
        [⟨⟨"caller", "function", "a.py", 1, []⟩, "callee", 2, none⟩]).edges :=
  ⟨by decide, by decide, by decide,
    resolution_soundness
      [⟨"caller", "function", "a.py", 1, []⟩, ⟨"callee", "function", "b.py", 1, []⟩]
      [⟨⟨"caller", "function", "a.py", 1, []⟩, "callee", 2, none⟩]
      ⟨⟨"caller", "function", "a.py", 1, []⟩, "callee", 2, none⟩
      ⟨"callee", "function", "b.py", 1, []⟩
      (by decide) (by decide) (by decide)⟩

/-! ### C5: entrypoint scoring and selection -/

/-- The candidate test of the `_detect_entrypoints` loop as one function:
a node contributes `(node, score)` iff its id has exactly two `"::"` parts
and its score reaches the threshold 3. -/
def candidateFn (g : Graph) (n : String) : Option (String × Nat) :=
  match splitColons n with
  | [_, _] => if 3 ≤ nodeScore g n then some (n, nodeScore g n) else none
  | _ => none

theorem entrypointCandidates_eq (g : Graph) :
    entrypointCandidates g = g.nodes.filterMap (candidateFn g) := by
  unfold entrypointCandidates
  have hstep : ∀ (acc : List (String × Nat)) (n : String),
      (match splitColons n with
       | [_, _] => if 3 ≤ nodeScore g n then acc ++ [(n, nodeScore g n)] else acc
       | _ => acc) =
      acc ++ (candidateFn g n).toList := by
    intro acc n
    unfold candidateFn
    cases hsp : splitColons n with
    | nil => simp
    | cons f t =>
      cases t with
      | nil => simp
      | cons s t2 =>
        cases t2 with
        | nil => dsimp only; split <;> simp
        | cons u t3 => simp
  have hgo : ∀ (l : List String) (init : List (String × Nat)),
      l.foldl (fun acc n =>
        match splitColons n with
        | [_, _] => if 3 ≤ nodeScore g n then acc ++ [(n, nodeScore g n)] else acc
        | _ => acc) init = init ++ l.filterMap (candidateFn g) := by
    intro l
    induction l with
    | nil => intro init; simp
    | cons n ns ih =>
      intro init
      rw [List.foldl_cons]
      rw [hstep init n, ih, List.filterMap_cons]
      cases hf : candidateFn g n with
      | none => simp
      | some p => simp
  exact hgo g.nodes []

theorem candidateFn_eq_some (g : Graph) (a : String) (p : String × Nat)
    (h : candidateFn g a = some p) :
    p = (a, nodeScore g a) ∧ 3 ≤ nodeScore g a := by
  unfold candidateFn at h
  cases hsp : splitColons a with
  | nil => rw [hsp] at h; exact absurd h (by simp)
  | cons f t =>
    rw [hsp] at h
    cases t with
    | nil => exact absurd h (by simp)
    | cons s t2 =>
      cases t2 with
      | cons u t3 => exact absurd h (by simp)
      | nil =>
        dsimp only at h
        split at h
        · exact ⟨(Option.some_injective _ h).symm, by assumption⟩
        · exact absurd h (by simp)

theorem mem_entrypointCandidates (g : Graph) (p : String × Nat)
    (h : p ∈ entrypointCandidates g) :
    p.1 ∈ g.nodes ∧ p.2 = nodeScore g p.1 ∧ 3 ≤ p.2 := by
  rw [entrypointCandidates_eq] at h
  rcases List.mem_filterMap.1 h with ⟨a, ha, hfa⟩
  obtain ⟨hp, h3⟩ := candidateFn_eq_some g a p hfa
  subst hp
  exact ⟨ha, rfl, h3⟩

theorem map_fst_candidates_sublist (g : Graph) :
    ((entrypointCandidates g).map Prod.fst).Sublist g.nodes := by
  rw [entrypointCandidates_eq]
  have : ∀ l : List String,
      ((l.filterMap (candidateFn g)).map Prod.fst).Sublist l := by
    intro l
    induction l with
    | nil => simp
    | cons n ns ih =>
      rw [List.filterMap_cons]
      cases hf : candidateFn g n with
      | none => exact ih.cons n
      | some p =>
        have hp1 : p.1 = n := by rw [(candidateFn_eq_some g n p hf).1]
        rw [List.map_cons, hp1]
        exact ih.cons₂ n
  exact this g.nodes

instance : IsTotal (String × Nat) (fun x y => y.2 ≤ x.2) :=
  ⟨fun a b => le_total b.2 a.2⟩

instance : IsTrans (String × Nat) (fun x y => y.2 ≤ x.2) :=
  ⟨fun _ _ _ h1 h2 => le_trans h2 h1⟩

theorem eq_singleton_of_all_eq {α : Type} (l : List α) (a : α) (hmem : a ∈ l)
    (hall : ∀ x ∈ l, x = a) (hnd : l.Nodup) : l = [a] := by
  cases l with
  | nil => exact absurd hmem (List.not_mem_nil a)
  | cons x xs =>
    have hx : x = a := hall x (List.mem_cons_self x xs)
    subst hx
    have : xs = [] := by
      cases xs with
      | nil => rfl
      | cons y ys =>
        have hy : y = x := hall y (List.mem_cons.2 (Or.inr (List.mem_cons_self y ys)))
        rw [List.nodup_cons] at hnd
        exact absurd (hy ▸ List.mem_cons_self y ys) hnd.1
    rw [this]

/-- The graph of the C5 counterexample: three zero-in-degree nodes that all
score 6. -/
def tieGraph : Graph := ⟨["app.py::run", "app.py::start", "main.py::main"], []⟩

/-- C5 counterexample: in `tieGraph`, `main.py::main` scores 6 and no node
scores higher, yet the detector returns the first two score-6 nodes in node
order and `main.py::main` is not among them — the claim's "provided no
other node scores higher" is not sufficient for membership. -/
theorem entrypoint_tie_counterexample :
    nodeScore tieGraph "main.py::main" = 6 ∧
    (∀ n ∈ tieGraph.nodes, nodeScore tieGraph n ≤ 6) ∧
    "main.py::main" ∉ detect_entrypoints tieGraph := by decide

/-- C5 amended: a node `main.py::main` with zero in-degree scores
3 (file) + 2 (symbol) + 1 (in-degree) = 6 and, provided every other node
scores strictly less (at most 5), it is the unique returned entrypoint. -/
theorem entrypoint_scoring_main (g : Graph) (hnd : g.nodes.Nodup)
    (hmem : "main.py::main" ∈ g.nodes)
    (hdeg : inDegree g "main.py::main" = 0)
    (hothers : ∀ n ∈ g.nodes, n ≠ "main.py::main" → nodeScore g n ≤ 5) :
    nodeScore g "main.py::main" = 6 ∧ detect_entrypoints g = ["main.py::main"] := by
  have hscore : nodeScore g "main.py::main" = 6 := by
    unfold nodeScore
    rw [show splitColons "main.py::main" = ["main.py", "main"] by decide]
    dsimp only
    rw [show fileBonus (lowerStr "main.py") = 3 by decide,
      show symbolBonus (lowerStr "main") = 2 by decide,
      show buildBonus (lowerStr "main") = 0 by decide]
    unfold topologyBonus
    rw [hdeg]
    rfl
  refine ⟨hscore, ?_⟩
  have hmain_c : ("main.py::main", 6) ∈ entrypointCandidates g := by
    rw [entrypointCandidates_eq]
    refine List.mem_filterMap.2 ⟨"main.py::main", hmem, ?_⟩
    unfold candidateFn
    rw [show splitColons "main.py::main" = ["main.py", "main"] by decide]
    dsimp only
    rw [hscore]
    norm_num
  have hall : ∀ p ∈ entrypointCandidates g,
      p.2 ≤ 6 ∧ (p.2 = 6 → p = ("main.py::main", 6)) := by
    intro p hp
    obtain ⟨hp1, hp2, hp3⟩ := mem_entrypointCandidates g p hp
    by_cases hq : p.1 = "main.py::main"
    · constructor
      · rw [hp2, hq, hscore]
      · intro h6
        cases p with
        | mk a b => simp only at hq h6; rw [hq, h6]
    · have h5 : nodeScore g p.1 ≤ 5 := hothers p.1 hp1 hq
      constructor
      · rw [hp2]; omega
      · intro h6; rw [hp2] at h6; omega
  have hperm : List.Perm
      (List.insertionSort (fun x y : String × Nat => y.2 ≤ x.2)
        (entrypointCandidates g))
      (entrypointCandidates g) :=
    List.perm_insertionSort _ _
  have hsorted : List.Sorted (fun x y : String × Nat => y.2 ≤ x.2)
      (List.insertionSort (fun x y : String × Nat => y.2 ≤ x.2)
        (entrypointCandidates g)) :=
    List.sorted_insertionSort _ _
  have hnodup_s : (List.insertionSort (fun x y : String × Nat => y.2 ≤ x.2)
      (entrypointCandidates g)).Nodup := by
    refine (hperm.nodup_iff).2 ?_
    exact ((map_fst_candidates_sublist g).nodup hnd).of_map Prod.fst
  have hmain_s : ("main.py::main", 6) ∈
      List.insertionSort (fun x y : String × Nat => y.2 ≤ x.2)
        (entrypointCandidates g) :=
    hperm.mem_iff.2 hmain_c
  unfold detect_entrypoints
  obtain ⟨sorted, hs⟩ : ∃ l, List.insertionSort (fun x y : String × Nat => y.2 ≤ x.2)
      (entrypointCandidates g) = l := ⟨_, rfl⟩
  rw [hs] at hperm hsorted hnodup_s hmain_s ⊢
  cases sorted with
  | nil => exact absurd hmain_s (List.not_mem_nil _)
  | cons p0 tl =>
    cases p0 with
    | mk n0 top =>
      dsimp only
      have htop : top = 6 := by
        have hle : top ≤ 6 :=
          (hall (n0, top) (hperm.subset (List.mem_cons_self _ _))).1
        have hge : 6 ≤ top := by
          rcases List.mem_cons.1 hmain_s with he | ht
          · have : top = 6 := congrArg Prod.snd he.symm
            omega
          · exact List.rel_of_sorted_cons hsorted _ ht
        omega
      subst htop
      have hfe : ((n0, 6) :: tl).filter (fun p => decide (p.2 = 6)) =
          [("main.py::main", 6)] := by
        apply eq_singleton_of_all_eq
        · exact List.mem_filter.2 ⟨hmain_s, by decide⟩
        · intro x hx
          have hx1 := List.mem_filter.1 hx
          have hx2 : x.2 = 6 := of_decide_eq_true hx1.2
          exact (hall x (hperm.subset hx1.1)).2 hx2
        · exact List.Nodup.filter _ hnodup_s
      rw [hfe]
      rfl

/-- Graph witnessing `entrypoint_scoring_main`: `main.py::main` plus one
dominated helper node. -/
def mainGraph : Graph :=
  ⟨["main.py::main", "util.py::helper"], [("main.py::main", "util.py::helper")]⟩

/-- Witness for `entrypoint_scoring_main` on `mainGraph`. -/
theorem entrypoint_scoring_main_witness :
    mainGraph.nodes.Nodup ∧
    "main.py::main" ∈ mainGraph.nodes ∧
    inDegree mainGraph "main.py::main" = 0 ∧
    (∀ n ∈ mainGraph.nodes, n ≠ "main.py::main" → nodeScore mainGraph n ≤ 5) ∧
    (nodeScore mainGraph "main.py::main" = 6 ∧
      detect_entrypoints mainGraph = ["main.py::main"]) :=
  ⟨by decide, by decide, by decide, by decide,
    entrypoint_scoring_main mainGraph (by decide) (by decide) (by decide) (by decide)⟩

/-! ### C2: pruning invariant -/

/-- Symmetric adjacency as a proposition. -/
def symAdjP (g : Graph) (a b : String) : Prop := symAdjB g a b = true

/-- Weak connectivity: any two nodes are joined by an undirected path.
An empty or single-node graph is trivially weakly connected, matching
`networkx.is_weakly_connected` on the pruner's non-empty outputs and the
"or empty" case of the claim. -/
def WeaklyConnected (g : Graph) : Prop :=
  ∀ a ∈ g.nodes, ∀ b ∈ g.nodes, Relation.ReflTransGen (symAdjP g) a b

theorem symAdjP_iff (g : Graph) (a b : String) :
    symAdjP g a b ↔ ∃ e ∈ g.edges, (e.1 = a ∧ e.2 = b) ∨ (e.1 = b ∧ e.2 = a) := by
  unfold symAdjP symAdjB
  rw [List.any_eq_true]
  constructor
  · rintro ⟨e, he, hcond⟩
    refine ⟨e, he, ?_⟩
    rcases Bool.or_eq_true_iff.1 hcond with h | h <;>
      rcases Bool.and_eq_true_iff.1 h with ⟨h1, h2⟩
    · exact Or.inl ⟨of_decide_eq_true h1, of_decide_eq_true h2⟩
    · exact Or.inr ⟨of_decide_eq_true h1, of_decide_eq_true h2⟩
  · rintro ⟨e, he, hcond⟩
    refine ⟨e, he, ?_⟩
    rcases hcond with ⟨h1, h2⟩ | ⟨h1, h2⟩
    · exact Bool.or_eq_true_iff.2 (Or.inl
        (Bool.and_eq_true_iff.2 ⟨decide_eq_true h1, decide_eq_true h2⟩))
    · exact Bool.or_eq_true_iff.2 (Or.inr
        (Bool.and_eq_true_iff.2 ⟨decide_eq_true h1, decide_eq_true h2⟩))

theorem symAdjP_symm (g : Graph) (a b : String) (h : symAdjP g a b) :
    symAdjP g b a := by
  rw [symAdjP_iff] at h ⊢
  rcases h with ⟨e, he, hc⟩
  exact ⟨e, he, hc.symm⟩

theorem symAdjP_mem (g : Graph)
    (hend : ∀ e ∈ g.edges, e.1 ∈ g.nodes ∧ e.2 ∈ g.nodes)
    (a b : String) (h : symAdjP g a b) : a ∈ g.nodes ∧ b ∈ g.nodes := by
  rw [symAdjP_iff] at h
  rcases h with ⟨e, he, hc⟩
  obtain ⟨h1, h2⟩ := hend e he
  rcases hc with ⟨ha, hb⟩ | ⟨ha, hb⟩
  · exact ⟨ha ▸ h1, hb ▸ h2⟩
  · exact ⟨hb ▸ h2, ha ▸ h1⟩

/-- A monotone bounded `Finset` map reaches a fixed point after enough
iterations (the closure argument behind `componentOf`). -/
theorem iterate_expand_fixed (f : Finset String → Finset String) (U : Finset String)
    (hsub : ∀ S, S ⊆ f S) (hbound : ∀ S, S ⊆ U → f S ⊆ U) :
    ∀ (n : Nat) (S : Finset String), S ⊆ U → U.card ≤ n + S.card →
      f (f^[n] S) = f^[n] S := by
  intro n
  induction n with
  | zero =>
    intro S hSU hcard
    simp only [Function.iterate_zero, id_eq]
    have h1 : S ⊆ f S := hsub S
    have h2 : (f S).card ≤ S.card :=
      le_trans (Finset.card_le_card (hbound S hSU)) (by omega)
    exact (Finset.eq_of_subset_of_card_le h1 h2).symm
  | succ n ih =>
    intro S hSU hcard
    by_cases hfix : f S = S
    · have hit : f^[n + 1] S = S := by
        rw [Function.iterate_succ_apply, hfix]
        exact Function.iterate_fixed hfix n
      rw [hit, hfix]
    · have hlt : S.card < (f S).card :=
        Finset.card_lt_card (Finset.ssubset_iff_subset_ne.2 ⟨hsub S, fun h => hfix h.symm⟩)
      rw [Function.iterate_succ_apply]
      exact ih (f S) (hbound S hSU) (by omega)

theorem subset_expandW (g : Graph) (S : Finset String) : S ⊆ expandW g S :=
  Finset.subset_union_left

theorem subset_iterate_expandW (g : Graph) (n : Nat) (S : Finset String) :
    S ⊆ (expandW g)^[n] S := by
  induction n generalizing S with
  | zero => simp
  | succ n ih =>
    rw [Function.iterate_succ_apply]
    exact le_trans (subset_expandW g S) (ih (expandW g S))

theorem expandW_bound (g : Graph) (U : Finset String)
    (hU : g.nodes.toFinset ⊆ U) (S : Finset String) (hS : S ⊆ U) :
    expandW g S ⊆ U := by
  unfold expandW
  exact Finset.union_subset hS (le_trans (Finset.filter_subset _ _) hU)

theorem expandW_componentOf_fixed (g : Graph) (x : String) :
    expandW g (componentOf g x) = componentOf g x := by
  unfold componentOf
  apply iterate_expand_fixed (expandW g) (insert x g.nodes.toFinset)
    (subset_expandW g) (expandW_bound g _ (Finset.subset_insert x _))
  · exact Finset.singleton_subset_iff.2 (Finset.mem_insert_self x _)
  · calc (insert x g.nodes.toFinset).card
        ≤ g.nodes.toFinset.card + 1 := Finset.card_insert_le x _
      _ ≤ g.nodes.length + 1 := by
          have := g.nodes.toFinset_card_le
          omega
      _ = g.nodes.length + ({x} : Finset String).card := by simp

theorem mem_componentOf_self (g : Graph) (x : String) : x ∈ componentOf g x :=
  subset_iterate_expandW g g.nodes.length {x} (Finset.mem_singleton_self x)

theorem componentOf_closed (g : Graph) (x y z : String)
    (hy : y ∈ componentOf g x) (hadj : symAdjP g y z) (hz : z ∈ g.nodes) :
    z ∈ componentOf g x := by
  rw [← expandW_componentOf_fixed g x]
  unfold expandW
  refine Finset.mem_union.2 (Or.inr (Finset.mem_filter.2 ⟨List.mem_toFinset.2 hz, y, hy, hadj⟩))

theorem reach_of_mem_componentOf (g : Graph) (x y : String)
    (h : y ∈ componentOf g x) : Relation.ReflTransGen (symAdjP g) x y := by
  unfold componentOf at h
  have hgen : ∀ (n : Nat) (y : String), y ∈ (expandW g)^[n] ({x} : Finset String) →
      Relation.ReflTransGen (symAdjP g) x y := by
    intro n
    induction n with
    | zero =>
      intro y hy
      simp only [Function.iterate_zero, id_eq, Finset.mem_singleton] at hy
      exact hy ▸ Relation.ReflTransGen.refl
    | succ n ih =>
      intro y hy
      rw [Function.iterate_succ_apply'] at hy
      unfold expandW at hy
      rcases Finset.mem_union.1 hy with h1 | h1
      · exact ih y h1
      · obtain ⟨hynodes, s, hs, hadj⟩ := Finset.mem_filter.1 h1
        exact Relation.ReflTransGen.tail (ih s hs) hadj
  exact hgen g.nodes.length y h

theorem componentsList_elem (g : Graph) (c : Finset String)
    (h : c ∈ componentsList g) : ∃ x ∈ g.nodes, c = componentOf g x := by
  unfold componentsList at h
  have hgen : ∀ (l : List String) (acc : List (Finset String)),
      (∀ n ∈ l, n ∈ g.nodes) →
      (∀ c ∈ acc, ∃ x ∈ g.nodes, c = componentOf g x) →
      ∀ c ∈ l.foldl (fun acc n =>
        if acc.any (fun c => decide (n ∈ c)) then acc else acc ++ [componentOf g n]) acc,
      ∃ x ∈ g.nodes, c = componentOf g x := by
    intro l
    induction l with
    | nil => intro acc _ hacc c hc; exact hacc c hc
    | cons n ns ih =>
      intro acc hl hacc c hc
      rw [List.foldl_cons] at hc
      refine ih _ (fun m hm => hl m (List.mem_cons.2 (Or.inr hm))) ?_ c hc
      intro d hd
      split at hd
      · exact hacc d hd
      · rcases List.mem_append.1 hd with h1 | h1
        · exact hacc d h1
        · rcases List.mem_singleton.1 h1 with rfl
          exact ⟨n, hl n (List.mem_cons_self n ns), rfl⟩
  exact hgen g.nodes [] (fun n hn => hn) (fun c hc => absurd hc (List.not_mem_nil c)) c h

theorem foldl_max_mem (c : Finset String) (cs : List (Finset String)) :
    cs.foldl (fun b x => if b.card < x.card then x else b) c ∈ c :: cs := by
  induction cs generalizing c with
  | nil => exact List.mem_singleton.2 rfl
  | cons x xs ih =>
    rw [List.foldl_cons]
    have h := ih (if c.card < x.card then x else c)
    rcases List.mem_cons.1 h with h1 | h1
    · rw [h1]
      split
      · exact List.mem_cons.2 (Or.inr (List.mem_cons_self x xs))
      · exact List.mem_cons_self c (x :: xs)
    · exact List.mem_cons.2 (Or.inr (List.mem_cons.2 (Or.inr h1)))

theorem mem_nodes_removeNodesG (g : Graph) (rm : List String) (n : String) :
    n ∈ (removeNodesG g rm).nodes ↔ n ∈ g.nodes ∧ n ∉ rm := by
  unfold removeNodesG
  simp [List.mem_filter]

theorem mem_edges_removeNodesG (g : Graph) (rm : List String) (e : String × String) :
    e ∈ (removeNodesG g rm).edges ↔ e ∈ g.edges ∧ e.1 ∉ rm ∧ e.2 ∉ rm := by
  unfold removeNodesG
  simp [List.mem_filter]

theorem removeNodesG_WF (g : Graph) (rm : List String) (h : g.WF) :
    (removeNodesG g rm).WF := by
  obtain ⟨hn, he, hend⟩ := h
  refine ⟨List.Nodup.filter _ hn, List.Nodup.filter _ he, ?_⟩
  intro e hmem
  obtain ⟨he1, hr1, hr2⟩ := (mem_edges_removeNodesG g rm e).1 hmem
  obtain ⟨hm1, hm2⟩ := hend e he1
  exact ⟨(mem_nodes_removeNodesG g rm e.1).2 ⟨hm1, hr1⟩,
    (mem_nodes_removeNodesG g rm e.2).2 ⟨hm2, hr2⟩⟩

theorem mem_isolates (g : Graph) (n : String) :
    n ∈ isolates g ↔ n ∈ g.nodes ∧ ¬∃ e ∈ g.edges, e.1 = n ∨ e.2 = n := by
  unfold isolates
  simp [List.mem_filter]

theorem remove_isolates_edges (g : Graph) :
    (remove_isolates g).edges = g.edges := by
  unfold remove_isolates removeNodesG
  dsimp only
  apply List.filter_eq_self.2
  intro e he
  have h1 : e.1 ∉ isolates g := by
    rw [mem_isolates]
    rintro ⟨-, hno⟩
    exact hno ⟨e, he, Or.inl rfl⟩
  have h2 : e.2 ∉ isolates g := by
    rw [mem_isolates]
    rintro ⟨-, hno⟩
    exact hno ⟨e, he, Or.inr rfl⟩
  rw [Bool.and_eq_true_iff]
  exact ⟨decide_eq_true h1, decide_eq_true h2⟩

theorem remove_isolates_incident (g : Graph) (n : String)
    (hn : n ∈ (remove_isolates g).nodes) :
    ∃ e ∈ (remove_isolates g).edges, e.1 = n ∨ e.2 = n := by
  obtain ⟨hgn, hni⟩ := (mem_nodes_removeNodesG g (isolates g) n).1 hn
  rw [remove_isolates_edges]
  by_contra hno
  exact hni ((mem_isolates g n).2 ⟨hgn, hno⟩)

theorem mem_nodes_subgraphG (g : Graph) (S : Finset String) (n : String) :
    n ∈ (subgraphG g S).nodes ↔ n ∈ g.nodes ∧ n ∈ S := by
  unfold subgraphG
  simp [List.mem_filter]

theorem mem_edges_subgraphG (g : Graph) (S : Finset String) (e : String × String) :
    e ∈ (subgraphG g S).edges ↔ e ∈ g.edges ∧ e.1 ∈ S ∧ e.2 ∈ S := by
  unfold subgraphG
  simp [List.mem_filter]

/-- An undirected path of the host graph whose start lies in a component
closed under adjacency stays inside the node-induced subgraph. -/
theorem reach_lift_subgraph (g : Graph) (comp : Finset String)
    (hend : ∀ e ∈ g.edges, e.1 ∈ g.nodes ∧ e.2 ∈ g.nodes)
    (hclosed : ∀ y z, y ∈ comp → symAdjP g y z → z ∈ g.nodes → z ∈ comp)
    (a b : String) (h : Relation.ReflTransGen (symAdjP g) a b) (ha : a ∈ comp) :
    Relation.ReflTransGen (symAdjP (subgraphG g comp)) a b := by
  induction h using Relation.ReflTransGen.head_induction_on with
  | refl => exact Relation.ReflTransGen.refl
  | head hr hrest ih =>
    rename_i a' c
    have hc : c ∈ comp :=
      hclosed a' c ha hr (symAdjP_mem g hend a' c hr).2
    have hlift : symAdjP (subgraphG g comp) a' c := by
      rw [symAdjP_iff] at hr ⊢
      rcases hr with ⟨e, he, hcond⟩
      refine ⟨e, ?_, hcond⟩
      refine (mem_edges_subgraphG g comp e).2 ⟨he, ?_, ?_⟩ <;>
        rcases hcond with ⟨h1, h2⟩ | ⟨h1, h2⟩
      · exact h1 ▸ ha
      · exact h1 ▸ hc
      · exact h2 ▸ hc
      · exact h2 ▸ ha
    exact Relation.ReflTransGen.head hlift (ih hc)

theorem componentsList_ne_nil (g : Graph) (hne : g.nodes ≠ []) :
    componentsList g ≠ [] := by
  unfold componentsList
  have hgrow : ∀ (l : List String) (acc : List (Finset String)),
      acc.length ≤ (l.foldl (fun acc n =>
        if acc.any (fun c => decide (n ∈ c)) then acc else acc ++ [componentOf g n])
        acc).length := by
    intro l
    induction l with
    | nil => intro acc; exact le_refl _
    | cons n ns ih =>
      intro acc
      rw [List.foldl_cons]
      refine le_trans ?_ (ih _)
      split
      · exact le_refl _
      · simp
  cases hn : g.nodes with
  | nil => exact absurd hn hne
  | cons n ns =>
    rw [List.foldl_cons]
    intro hcontra
    have h1 := hgrow ns (if List.any [] (fun c : Finset String => decide (n ∈ c)) then []
      else [] ++ [componentOf g n])
    rw [hcontra] at h1
    simp at h1

/-- C2: pruning invariant — for every well-formed input graph, after the
authority filter, the isolation filter and the largest-component filter,
every remaining node id is Symbol-derived, every remaining node has an
incident edge, and the result is weakly connected (vacuously so when it is
empty). -/
theorem pruning_invariant (syms : List Symbol) (g : Graph) (hwf : g.WF) :
    (∀ n ∈ (pruneGraph syms g).nodes, n ∈ syms.map node_id) ∧
    (∀ n ∈ (pruneGraph syms g).nodes,
      ∃ e ∈ (pruneGraph syms g).edges, e.1 = n ∨ e.2 = n) ∧
    WeaklyConnected (pruneGraph syms g) := by
  unfold pruneGraph
  have hwf1 : (remove_builtin_noise syms g).WF := removeNodesG_WF _ _ hwf
  have hwf2 : (remove_isolates (remove_builtin_noise syms g)).WF :=
    removeNodesG_WF _ _ hwf1
  obtain ⟨g2nodes, g2edges, hg2end⟩ :
      True ∧ True ∧ ∀ e ∈ (remove_isolates (remove_builtin_noise syms g)).edges,
        e.1 ∈ (remove_isolates (remove_builtin_noise syms g)).nodes ∧
        e.2 ∈ (remove_isolates (remove_builtin_noise syms g)).nodes :=
    ⟨trivial, trivial, hwf2.2.2⟩
  have hauth : ∀ n ∈ (remove_isolates (remove_builtin_noise syms g)).nodes,
      n ∈ syms.map node_id := by
    intro n hn
    have h1 : n ∈ (remove_builtin_noise syms g).nodes :=
      ((mem_nodes_removeNodesG _ _ n).1 hn).1
    unfold remove_builtin_noise at h1
    obtain ⟨hgn, hnr⟩ := (mem_nodes_removeNodesG _ _ n).1 h1
    by_contra hnv
    exact hnr (List.mem_filter.2 ⟨hgn, decide_eq_true hnv⟩)
  unfold largest_component_filter
  cases hcl : componentsList (remove_isolates (remove_builtin_noise syms g)) with
  | nil =>
    dsimp only
    have hempty : (remove_isolates (remove_builtin_noise syms g)).nodes = [] := by
      by_contra hne
      exact componentsList_ne_nil _ hne hcl
    refine ⟨?_, ?_, ?_⟩ <;> intro n hn <;> rw [hempty] at hn <;>
      exact absurd hn (List.not_mem_nil n)
  | cons c cs =>
    have hmemc : cs.foldl (fun b x => if b.card < x.card then x else b) c ∈
        componentsList (remove_isolates (remove_builtin_noise syms g)) := by
      rw [hcl]; exact foldl_max_mem c cs
    obtain ⟨x, hx, hcomp⟩ := componentsList_elem _ _ hmemc
    dsimp only
    rw [hcomp]
    have hclosed : ∀ y z, y ∈ componentOf (remove_isolates (remove_builtin_noise syms g)) x →
        symAdjP (remove_isolates (remove_builtin_noise syms g)) y z →
        z ∈ (remove_isolates (remove_builtin_noise syms g)).nodes →
        z ∈ componentOf (remove_isolates (remove_builtin_noise syms g)) x :=
      componentOf_closed _ x
    refine ⟨?_, ?_, ?_⟩
    · intro n hn
      exact hauth n ((mem_nodes_subgraphG _ _ n).1 hn).1
    · intro n hn
      obtain ⟨hn2, hnc⟩ := (mem_nodes_subgraphG _ _ n).1 hn
      obtain ⟨e, he, hinc⟩ := remove_isolates_incident _ n hn2
      have hadj : ∀ m, (e.1 = n ∧ e.2 = m) ∨ (e.1 = m ∧ e.2 = n) →
          symAdjP (remove_isolates (remove_builtin_noise syms g)) n m := by
        intro m hm
        rw [symAdjP_iff]
        exact ⟨e, he, hm⟩
      rcases hinc with h1 | h1
      · have hs : symAdjP _ n e.2 := hadj e.2 (Or.inl ⟨h1, rfl⟩)
        have he2 : e.2 ∈ componentOf (remove_isolates (remove_builtin_noise syms g)) x :=
          hclosed n e.2 hnc hs (hg2end e he).2
        refine ⟨e, (mem_edges_subgraphG _ _ e).2 ⟨he, h1 ▸ hnc, he2⟩, Or.inl h1⟩
      · have hs : symAdjP _ n e.1 := hadj e.1 (Or.inr ⟨rfl, h1⟩)
        have he1 : e.1 ∈ componentOf (remove_isolates (remove_builtin_noise syms g)) x :=
          hclosed n e.1 hnc hs (hg2end e he).1
        refine ⟨e, (mem_edges_subgraphG _ _ e).2 ⟨he, he1, h1 ▸ hnc⟩, Or.inr h1⟩
    · intro a ha b hb
      obtain ⟨ha2, hac⟩ := (mem_nodes_subgraphG _ _ a).1 ha
      obtain ⟨hb2, hbc⟩ := (mem_nodes_subgraphG _ _ b).1 hb
      have hxa := reach_of_mem_componentOf _ x a hac
      have hxb := reach_of_mem_componentOf _ x b hbc
      have hax : Relation.ReflTransGen
          (symAdjP (remove_isolates (remove_builtin_noise syms g))) a x :=
        Relation.ReflTransGen.symmetric (fun _ _ => symAdjP_symm _ _ _) hxa
      have hab := Relation.ReflTransGen.trans hax hxb
      exact reach_lift_subgraph _ _ hwf2.2.2 hclosed a b hab hac

/-- Witness for `pruning_invariant`: two linked project nodes plus one
foreign node. -/
theorem pruning_invariant_witness :
    (⟨["f.py::a", "f.py::b", "x"], [("f.py::a", "f.py::b")]⟩ : Graph).WF ∧
    ((∀ n ∈ (pruneGraph
        [⟨"a", "function", "f.py", 1, []⟩, ⟨"b", "function", "f.py", 2, []⟩]
        ⟨["f.py::a", "f.py::b", "x"], [("f.py::a", "f.py::b")]⟩).nodes,
      n ∈ [(⟨"a", "function", "f.py", 1, []⟩ : Symbol),
           ⟨"b", "function", "f.py", 2, []⟩].map node_id) ∧
    (∀ n ∈ (pruneGraph
        [⟨"a", "function", "f.py", 1, []⟩, ⟨"b", "function", "f.py", 2, []⟩]
        ⟨["f.py::a", "f.py::b", "x"], [("f.py::a", "f.py::b")]⟩).nodes,
      ∃ e ∈ (pruneGraph
        [⟨"a", "function", "f.py", 1, []⟩, ⟨"b", "function", "f.py", 2, []⟩]
        ⟨["f.py::a", "f.py::b", "x"], [("f.py::a", "f.py::b")]⟩).edges,
        e.1 = n ∨ e.2 = n) ∧
    WeaklyConnected (pruneGraph
        [⟨"a", "function", "f.py", 1, []⟩, ⟨"b", "function", "f.py", 2, []⟩]
        ⟨["f.py::a", "f.py::b", "x"], [("f.py::a", "f.py::b")]⟩)) :=
  ⟨by decide,
    pruning_invariant
      [⟨"a", "function", "f.py", 1, []⟩, ⟨"b", "function", "f.py", 2, []⟩]
      ⟨["f.py::a", "f.py::b", "x"], [("f.py::a", "f.py::b")]⟩ (by decide)⟩

/-! ### C7: depth-filter characterization

Correctness of the per-entry FIFO BFS of `_apply_depth_filter`: a node is
kept iff its shortest directed distance from some entry is at most the
depth bound.  `reachInB g d x y` is the spec-side "distance ≤ d" relation;
`ExactDist` pins the exact first-seen (= shortest) distance. -/

theorem successors_mem (g : Graph)
    (hend : ∀ ed ∈ g.edges, ed.1 ∈ g.nodes ∧ ed.2 ∈ g.nodes)
    (x s : String) (h : s ∈ successors g x) : s ∈ g.nodes := by
  unfold successors at h
  rcases List.mem_map.1 h with ⟨ed, hed, hsnd⟩
  exact hsnd ▸ (hend ed (List.mem_of_mem_filter hed)).2

theorem reachInB_refl (g : Graph) (d : Nat) (x : String) :
    reachInB g d x x = true := by
  cases d with
  | zero => simp [reachInB]
  | succ d => simp [reachInB]

theorem reachInB_zero_iff (g : Graph) (x y : String) :
    reachInB g 0 x y = true ↔ y = x := by
  simp [reachInB]

theorem reachInB_succ_iff (g : Graph) (d : Nat) (x y : String) :
    reachInB g (d + 1) x y = true ↔
      y = x ∨ ∃ s ∈ successors g x, reachInB g d s y = true := by
  simp [reachInB, List.any_eq_true]

theorem reachInB_mono (g : Graph) (d1 d2 : Nat) (x y : String) (hle : d1 ≤ d2)
    (h : reachInB g d1 x y = true) : reachInB g d2 x y = true := by
  induction d1 generalizing d2 x y with
  | zero =>
    have hy : y = x := (reachInB_zero_iff g x y).1 h
    exact hy ▸ reachInB_refl g d2 x
  | succ d ih =>
    cases d2 with
    | zero => omega
    | succ d2 =>
      rcases (reachInB_succ_iff g d x y).1 h with hy | ⟨s, hs, hr⟩
      · exact hy ▸ reachInB_refl g (d2 + 1) x
      · exact (reachInB_succ_iff g d2 x y).2 (Or.inr ⟨s, hs, ih d2 s y (by omega) hr⟩)

theorem reachInB_trans (g : Graph) (d1 d2 : Nat) (x y z : String)
    (h1 : reachInB g d1 x y = true) (h2 : reachInB g d2 y z = true) :
    reachInB g (d1 + d2) x z = true := by
  induction d1 generalizing x y with
  | zero =>
    have hy : y = x := (reachInB_zero_iff g x y).1 h1
    rw [Nat.zero_add]
    exact hy ▸ h2
  | succ d ih =>
    rcases (reachInB_succ_iff g d x y).1 h1 with hy | ⟨s, hs, hr⟩
    · exact reachInB_mono g d2 (d + 1 + d2) x z (by omega) (hy ▸ h2)
    · have := ih s y hr h2
      have hstep : reachInB g (d + d2 + 1) x z = true :=
        (reachInB_succ_iff g (d + d2) x z).2 (Or.inr ⟨s, hs, this⟩)
      have : d + d2 + 1 = d + 1 + d2 := by omega
      exact this ▸ hstep

theorem reachInB_step (g : Graph) (d : Nat) (x y s : String)
    (h : reachInB g d x y = true) (hs : s ∈ successors g y) :
    reachInB g (d + 1) x s = true := by
  have h1 : reachInB g 1 y s = true :=
    (reachInB_succ_iff g 0 y s).2 (Or.inr ⟨s, hs, reachInB_refl g 0 s⟩)
  exact reachInB_trans g d 1 x y s h h1

theorem reachInB_mem (g : Graph)
    (hend : ∀ ed ∈ g.edges, ed.1 ∈ g.nodes ∧ ed.2 ∈ g.nodes)
    (d : Nat) (x y : String) (h : reachInB g d x y = true) (hx : x ∈ g.nodes) :
    y ∈ g.nodes := by
  induction d generalizing x with
  | zero => exact ((reachInB_zero_iff g x y).1 h) ▸ hx
  | succ d ih =>
    rcases (reachInB_succ_iff g d x y).1 h with hy | ⟨s, hs, hr⟩
    · exact hy ▸ hx
    · exact ih s hr (successors_mem g hend x s hs)

/-- The exact (shortest / first-seen) BFS distance from `e` to `n`. -/
def ExactDist (g : Graph) (e n : String) (d : Nat) : Prop :=
  reachInB g d e n = true ∧ ∀ d' < d, reachInB g d' e n = false

theorem exactDist_exists (g : Graph) (e n : String) (d : Nat)
    (h : reachInB g d e n = true) : ∃ D ≤ d, ExactDist g e n D := by
  have hex : ∃ d', reachInB g d' e n = true := ⟨d, h⟩
  refine ⟨Nat.find hex, Nat.find_min' hex h, Nat.find_spec hex, ?_⟩
  intro d' hd'
  have := Nat.find_min hex hd'
  exact Bool.eq_false_iff.2 fun hb => this hb

theorem exactDist_unique (g : Graph) (e n : String) (d1 d2 : Nat)
    (h1 : ExactDist g e n d1) (h2 : ExactDist g e n d2) : d1 = d2 := by
  by_contra hne
  rcases Nat.lt_or_ge d1 d2 with hlt | hge
  · have htrue := h1.1
    rw [h2.2 d1 hlt] at htrue
    exact Bool.false_ne_true htrue
  · have hlt : d2 < d1 := by omega
    have htrue := h2.1
    rw [h1.2 d2 hlt] at htrue
    exact Bool.false_ne_true htrue

theorem exactDist_self (g : Graph) (e : String) : ExactDist g e e 0 :=
  ⟨reachInB_refl g 0 e, fun d' hd' => absurd hd' (Nat.not_lt_zero d')⟩

theorem exactDist_zero (g : Graph) (e n : String) (h : ExactDist g e n 0) :
    n = e := (reachInB_zero_iff g e n).1 h.1

/-- The nodes freshly enqueued by one `bfsStep`: the successors not yet
visited, first occurrences only (visited grows during the fold). -/
def freshNew (V : List String) : List String → List String
  | [] => []
  | s :: ss => if s ∈ V then freshNew V ss else s :: freshNew (V ++ [s]) ss

theorem mem_freshNew (V : List String) (ss : List String) (m : String) :
    m ∈ freshNew V ss ↔ m ∈ ss ∧ m ∉ V := by
  induction ss generalizing V with
  | nil => simp [freshNew]
  | cons s ss ih =>
    unfold freshNew
    split
    · rename_i hsV
      rw [ih]
      constructor
      · rintro ⟨h1, h2⟩; exact ⟨List.mem_cons.2 (Or.inr h1), h2⟩
      · rintro ⟨h1, h2⟩
        rcases List.mem_cons.1 h1 with rfl | h1
        · exact absurd hsV h2
        · exact ⟨h1, h2⟩
    · rename_i hsV
      constructor
      · intro h
        rcases List.mem_cons.1 h with rfl | h1
        · exact ⟨List.mem_cons_self m ss, hsV⟩
        · obtain ⟨h2, h3⟩ := (ih (V ++ [s])).1 h1
          refine ⟨List.mem_cons.2 (Or.inr h2), fun hm => h3 ?_⟩
          exact List.mem_append.2 (Or.inl hm)
      · rintro ⟨h1, h2⟩
        rcases List.mem_cons.1 h1 with rfl | h1
        · exact List.mem_cons_self m _
        · by_cases hms : m = s
          · exact hms ▸ List.mem_cons_self s _
          · refine List.mem_cons.2 (Or.inr ((ih (V ++ [s])).2 ⟨h1, fun hm => ?_⟩))
            rcases List.mem_append.1 hm with hm1 | hm1
            · exact h2 hm1
            · exact hms (List.mem_singleton.1 hm1)

theorem freshNew_nodup (V : List String) (ss : List String) :
    (freshNew V ss).Nodup := by
  induction ss generalizing V with
  | nil => simp [freshNew]
  | cons s ss ih =>
    unfold freshNew
    split
    · exact ih V
    · rw [List.nodup_cons]
      refine ⟨fun hmem => ?_, ih (V ++ [s])⟩
      have := ((mem_freshNew _ _ _).1 hmem).2
      exact this (List.mem_append.2 (Or.inr (List.mem_singleton.2 rfl)))

theorem bfsStep_eq (g : Graph) (n : String) (d : Nat) (q : List (String × Nat))
    (V : List String) :
    bfsStep g n d q V =
      (q ++ (freshNew V (successors g n)).map (fun s => (s, d + 1)),
       V ++ freshNew V (successors g n)) := by
  unfold bfsStep
  have hgen : ∀ (ss : List String) (q : List (String × Nat)) (V : List String),
      ss.foldl (fun (p : List (String × Nat) × List String) s =>
        if s ∈ p.2 then p else (p.1 ++ [(s, d + 1)], p.2 ++ [s])) (q, V) =
      (q ++ (freshNew V ss).map (fun s => (s, d + 1)), V ++ freshNew V ss) := by
    intro ss
    induction ss with
    | nil => intro q V; simp [freshNew]
    | cons s ss ih =>
      intro q V
      rw [List.foldl_cons]
      dsimp only
      unfold freshNew
      split
      · exact ih q V
      · rw [ih (q ++ [(s, d + 1)]) (V ++ [s])]
        simp
  exact hgen (successors g n) q V

/-- Loop invariant of the per-entry BFS: queue entries carry their exact
distance and stay within the bound, the queue is sorted by depth and spans
at most two consecutive levels, popped nodes are at most head-deep, every
visited node is within the ball of radius `maxd`, and every unvisited node
within the ball has a queue entry on one of its shortest paths. -/
structure BfsInv (g : Graph) (maxd : Nat) (e : String)
    (Q : List (String × Nat)) (V : List String) : Prop where
  vnodup : V.Nodup
  vsub : ∀ v ∈ V, v ∈ g.nodes
  qsubv : ∀ p ∈ Q, p.1 ∈ V
  qnodup : (Q.map Prod.fst).Nodup
  qexact : ∀ p ∈ Q, ExactDist g e p.1 p.2 ∧ p.2 ≤ maxd
  qsorted : List.Sorted (· ≤ ·) (Q.map Prod.snd)
  qspread : ∀ p ∈ Q, ∀ q0 qt, Q = q0 :: qt → p.2 ≤ q0.2 + 1
  done_le : ∀ v ∈ V, v ∉ Q.map Prod.fst → ∀ q0 qt, Q = q0 :: qt →
      ∃ dv, dv ≤ q0.2 ∧ reachInB g dv e v = true
  vball : ∀ v ∈ V, ∃ dv, dv ≤ maxd ∧ reachInB g dv e v = true
  frontier : ∀ m D, ExactDist g e m D → D ≤ maxd → m ∉ V →
      ∃ p ∈ Q, ∃ δ, p.2 + δ = D ∧ reachInB g δ p.1 m = true

theorem map_fst_pair (l : List String) (d : Nat) :
    (l.map (fun s => (s, d))).map Prod.fst = l := by
  induction l with
  | nil => rfl
  | cons a t ih => simp only [List.map_cons, ih]

theorem map_snd_pair (l : List String) (d : Nat) :
    (l.map (fun s => (s, d))).map Prod.snd = l.map (fun _ => d) := by
  induction l with
  | nil => rfl
  | cons a t ih => simp only [List.map_cons, ih]

theorem queue_head_min (Q : List (String × Nat)) (q0 : String × Nat)
    (qt : List (String × Nat)) (hQ : Q = q0 :: qt)
    (hs : List.Sorted (· ≤ ·) (Q.map Prod.snd)) : ∀ p ∈ Q, q0.2 ≤ p.2 := by
  subst hQ
  intro p hp
  rcases List.mem_cons.1 hp with rfl | hp
  · exact le_refl _
  · have hmem : p.2 ∈ qt.map Prod.snd := List.mem_map_of_mem Prod.snd hp
    rw [List.map_cons] at hs
    exact List.rel_of_sorted_cons hs p.2 hmem

theorem sorted_map_const (l : List String) (c : Nat) :
    List.Sorted (· ≤ ·) (l.map (fun _ => c)) := by
  induction l with
  | nil => simp
  | cons s ss ih =>
    rw [List.map_cons, List.sorted_cons]
    refine ⟨?_, ih⟩
    intro b hb
    rcases List.mem_map.1 hb with ⟨t, ht, rfl⟩
    exact le_refl c

/-- Invariant preservation for a pop at depth `d < maxd`: the unvisited
successors are enqueued at depth `d + 1`. -/
theorem bfsInv_step (g : Graph) (maxd : Nat) (e : String)
    (hend : ∀ ed ∈ g.edges, ed.1 ∈ g.nodes ∧ ed.2 ∈ g.nodes)
    (n : String) (d : Nat) (rest : List (String × Nat)) (V : List String)
    (inv : BfsInv g maxd e ((n, d) :: rest) V) (hlt : d < maxd) :
    BfsInv g maxd e
      (rest ++ (freshNew V (successors g n)).map (fun s => (s, d + 1)))
      (V ++ freshNew V (successors g n)) := by
  obtain ⟨vnodup, vsub, qsubv, qnodup, qexact, qsorted, qspread, done_le,
    vball, frontier⟩ := inv
  have hnV : n ∈ V := qsubv (n, d) (List.mem_cons_self _ _)
  obtain ⟨hexn, hdmax⟩ := qexact (n, d) (List.mem_cons_self _ _)
  have hmin : ∀ p ∈ (n, d) :: rest, d ≤ p.2 :=
    queue_head_min _ (n, d) rest rfl qsorted
  have hFmem : ∀ s ∈ freshNew V (successors g n),
      s ∈ successors g n ∧ s ∉ V := fun s hs => (mem_freshNew V _ s).1 hs
  have hVdisj : List.Disjoint V (freshNew V (successors g n)) :=
    fun a ha hf => (hFmem a hf).2 ha
  have hFexact : ∀ s ∈ freshNew V (successors g n), ExactDist g e s (d + 1) := by
    intro s hs
    obtain ⟨hsucc, hsV⟩ := hFmem s hs
    constructor
    · exact reachInB_step g d e n s hexn.1 hsucc
    · intro d' hd'
      rcases Bool.eq_false_or_eq_true (reachInB g d' e s) with ht | hf
      swap
      · exact hf
      · exfalso
        obtain ⟨Ds, hDs, hexs⟩ := exactDist_exists g e s d' ht
        obtain ⟨p, hp, δs, hsum, hr⟩ :=
          frontier s Ds hexs (by omega) hsV
        have hple : d ≤ p.2 := hmin p hp
        have hδ0 : δs = 0 := by omega
        subst hδ0
        have hsp : s = p.1 := (reachInB_zero_iff g p.1 s).1 hr
        exact hsV (hsp ▸ qsubv p hp)
  have hQ'mem : ∀ p ∈ rest ++ (freshNew V (successors g n)).map
      (fun s => (s, d + 1)), d ≤ p.2 ∧ p.2 ≤ d + 1 := by
    intro p hp
    rcases List.mem_append.1 hp with h1 | h1
    · exact ⟨hmin p (List.mem_cons.2 (Or.inr h1)),
        qspread p (List.mem_cons.2 (Or.inr h1)) (n, d) rest rfl⟩
    · rcases List.mem_map.1 h1 with ⟨s, hs, rfl⟩
      omega
  refine ⟨?_, ?_, ?_, ?_, ?_, ?_, ?_, ?_, ?_, ?_⟩
  · exact vnodup.append (freshNew_nodup V _) hVdisj
  · intro v hv
    rcases List.mem_append.1 hv with h1 | h1
    · exact vsub v h1
    · exact successors_mem g hend n v (hFmem v h1).1
  · intro p hp
    rcases List.mem_append.1 hp with h1 | h1
    · exact List.mem_append.2 (Or.inl (qsubv p (List.mem_cons.2 (Or.inr h1))))
    · rcases List.mem_map.1 h1 with ⟨s, hs, rfl⟩
      exact List.mem_append.2 (Or.inr hs)
  · rw [List.map_append]
    rw [map_fst_pair]
    refine (qnodup.of_cons).append (freshNew_nodup V _) ?_
    intro a ha hf
    rcases List.mem_map.1 ha with ⟨p, hp, rfl⟩
    exact (hFmem _ hf).2 (qsubv p (List.mem_cons.2 (Or.inr hp)))
  · intro p hp
    rcases List.mem_append.1 hp with h1 | h1
    · exact qexact p (List.mem_cons.2 (Or.inr h1))
    · rcases List.mem_map.1 h1 with ⟨s, hs, rfl⟩
      exact ⟨hFexact s hs, by omega⟩
  · rw [List.map_append]
    rw [map_snd_pair]
    rw [List.Sorted, List.pairwise_append]
    refine ⟨?_, sorted_map_const _ _, ?_⟩
    · rw [List.map_cons] at qsorted
      exact (List.sorted_cons.1 qsorted).2
    · intro a ha b hb
      rcases List.mem_map.1 ha with ⟨p, hp, rfl⟩
      rcases List.mem_map.1 hb with ⟨s, hs, rfl⟩
      exact qspread p (List.mem_cons.2 (Or.inr hp)) (n, d) rest rfl
  · intro p hp q0 qt hQ'
    have hq0 : q0 ∈ rest ++ (freshNew V (successors g n)).map (fun s => (s, d + 1)) := by
      rw [hQ']; exact List.mem_cons_self q0 qt
    have h1 := hQ'mem p hp
    have h2 := hQ'mem q0 hq0
    omega
  · intro v hv hvQ q0 qt hQ'
    have hvV : v ∈ V := by
      rcases List.mem_append.1 hv with h1 | h1
      · exact h1
      · exfalso
        apply hvQ
        rw [List.map_append]
        refine List.mem_append.2 (Or.inr ?_)
        rw [map_fst_pair]
        exact h1
    have hq0 : q0 ∈ rest ++ (freshNew V (successors g n)).map (fun s => (s, d + 1)) := by
      rw [hQ']; exact List.mem_cons_self q0 qt
    have hq0d : d ≤ q0.2 := (hQ'mem q0 hq0).1
    by_cases hvn : v = n
    · exact ⟨d, hq0d, hvn ▸ hexn.1⟩
    · have hvQold : v ∉ ((n, d) :: rest).map Prod.fst := by
        rw [List.map_cons]
        intro hmem
        rcases List.mem_cons.1 hmem with h1 | h1
        · exact hvn h1
        · apply hvQ
          rw [List.map_append]
          exact List.mem_append.2 (Or.inl h1)
      obtain ⟨dv, hdv, hrv⟩ := done_le v hvV hvQold (n, d) rest rfl
      exact ⟨dv, by omega, hrv⟩
  · intro v hv
    rcases List.mem_append.1 hv with h1 | h1
    · exact vball v h1
    · exact ⟨d + 1, by omega, (hFexact v h1).1⟩
  · intro m D hex hD hmV'
    have hmV : m ∉ V := fun h => hmV' (List.mem_append.2 (Or.inl h))
    have hmF : m ∉ freshNew V (successors g n) :=
      fun h => hmV' (List.mem_append.2 (Or.inr h))
    obtain ⟨p, hp, δ, hsum, hr⟩ := frontier m D hex hD hmV
    rcases List.mem_cons.1 hp with heq | hprest
    · subst heq
      cases δ with
      | zero =>
        exact absurd (((reachInB_zero_iff g _ m).1 hr) ▸ hnV) hmV
      | succ δ' =>
        rcases (reachInB_succ_iff g δ' _ m).1 hr with hm | ⟨s, hs, hr'⟩
        · exact absurd (hm ▸ hnV) hmV
        · have hsExact : ExactDist g e s (d + 1) := by
            constructor
            · exact reachInB_step g d e n s hexn.1 hs
            · intro d' hd'
              rcases Bool.eq_false_or_eq_true (reachInB g d' e s) with ht | hf
              swap
              · exact hf
              · exfalso
                have hm' : reachInB g (d' + δ') e m = true :=
                  reachInB_trans g d' δ' e s m ht hr'
                have hlt2 : d' + δ' < D := by omega
                have hfalse := hex.2 (d' + δ') hlt2
                rw [hfalse] at hm'
                exact Bool.false_ne_true hm'
          by_cases hsF : s ∈ freshNew V (successors g n)
          · refine ⟨(s, d + 1),
              List.mem_append.2 (Or.inr (List.mem_map.2 ⟨s, hsF, rfl⟩)),
              δ', by omega, hr'⟩
          · have hsV : s ∈ V := by
              by_contra hsV
              exact hsF ((mem_freshNew V _ s).2 ⟨hs, hsV⟩)
            by_cases hsQ : s ∈ ((n, d) :: rest).map Prod.fst
            · rcases List.mem_map.1 hsQ with ⟨p', hp', hfst⟩
              have hpex := (qexact p' hp').1
              rw [hfst] at hpex
              have hds : p'.2 = d + 1 := exactDist_unique g e s _ _ hpex hsExact
              have hp'rest : p' ∈ rest := by
                rcases List.mem_cons.1 hp' with heq | h
                · exfalso
                  rw [heq] at hds
                  simp at hds
                · exact h
              refine ⟨p', List.mem_append.2 (Or.inl hp'rest), δ', by omega, ?_⟩
              rw [hfst]
              exact hr'
            · exfalso
              obtain ⟨dv, hdv, hrv⟩ := done_le s hsV hsQ (n, d) rest rfl
              have hm' : reachInB g (dv + δ') e m = true :=
                reachInB_trans g dv δ' e s m hrv hr'
              have hlt2 : dv + δ' < D := by omega
              have hfalse := hex.2 (dv + δ') hlt2
              rw [hfalse] at hm'
              exact Bool.false_ne_true hm'
    · exact ⟨p, List.mem_append.2 (Or.inl hprest), δ, hsum, hr⟩

/-- Invariant preservation for a pop at the depth bound: nothing is
enqueued. -/
theorem bfsInv_step_max (g : Graph) (maxd : Nat) (e : String)
    (n : String) (d : Nat) (rest : List (String × Nat)) (V : List String)
    (inv : BfsInv g maxd e ((n, d) :: rest) V) (hge : ¬ d < maxd) :
    BfsInv g maxd e rest V := by
  obtain ⟨vnodup, vsub, qsubv, qnodup, qexact, qsorted, qspread, done_le,
    vball, frontier⟩ := inv
  have hnV : n ∈ V := qsubv (n, d) (List.mem_cons_self _ _)
  obtain ⟨hexn, hdmax⟩ := qexact (n, d) (List.mem_cons_self _ _)
  have hdeq : d = maxd := by omega
  have hmin : ∀ p ∈ (n, d) :: rest, d ≤ p.2 :=
    queue_head_min _ (n, d) rest rfl qsorted
  refine ⟨vnodup, vsub, ?_, ?_, ?_, ?_, ?_, ?_, vball, ?_⟩
  · intro p hp; exact qsubv p (List.mem_cons.2 (Or.inr hp))
  · rw [List.map_cons] at qnodup; exact qnodup.of_cons
  · intro p hp; exact qexact p (List.mem_cons.2 (Or.inr hp))
  · rw [List.map_cons] at qsorted; exact (List.sorted_cons.1 qsorted).2
  · intro p hp q0 qt hQ'
    have hq0 : q0 ∈ rest := by rw [hQ']; exact List.mem_cons_self q0 qt
    have h1 := qspread p (List.mem_cons.2 (Or.inr hp)) (n, d) rest rfl
    have h2 := hmin q0 (List.mem_cons.2 (Or.inr hq0))
    omega
  · intro v hv hvQ q0 qt hQ'
    have hq0 : q0 ∈ rest := by rw [hQ']; exact List.mem_cons_self q0 qt
    have hq0d : d ≤ q0.2 := hmin q0 (List.mem_cons.2 (Or.inr hq0))
    by_cases hvn : v = n
    · exact ⟨d, hq0d, hvn ▸ hexn.1⟩
    · have hvQold : v ∉ ((n, d) :: rest).map Prod.fst := by
        rw [List.map_cons]
        intro hmem
        rcases List.mem_cons.1 hmem with h1 | h1
        · exact hvn h1
        · exact hvQ h1
      obtain ⟨dv, hdv, hrv⟩ := done_le v hv hvQold (n, d) rest rfl
      exact ⟨dv, by omega, hrv⟩
  · intro m D hex hD hmV
    obtain ⟨p, hp, δ, hsum, hr⟩ := frontier m D hex hD hmV
    rcases List.mem_cons.1 hp with heq | hprest
    · exfalso
      subst heq
      have hδ0 : δ = 0 := by omega
      subst hδ0
      exact hmV (((reachInB_zero_iff g _ m).1 hr) ▸ hnV)
    · exact ⟨p, hprest, δ, hsum, hr⟩

theorem nodup_length_le (V N : List String) (hnd : V.Nodup)
    (hsub : ∀ v ∈ V, v ∈ N) : V.length ≤ N.length := by
  have h1 : V.toFinset.card = V.length := List.toFinset_card_of_nodup hnd
  have h2 : V.toFinset ⊆ N.toFinset := by
    intro a ha
    exact List.mem_toFinset.2 (hsub a (List.mem_toFinset.1 ha))
  calc V.length = V.toFinset.card := h1.symm
    _ ≤ N.toFinset.card := Finset.card_le_card h2
    _ ≤ N.length := N.toFinset_card_le

/-- With an empty queue, every node of the radius-`maxd` ball has been
visited (the completeness half of BFS correctness). -/
theorem ball_sub_V_of_empty (g : Graph) (maxd : Nat) (e : String)
    (V : List String) (inv : BfsInv g maxd e [] V) (m : String)
    (hball : reachInB g maxd e m = true) : m ∈ V := by
  by_contra hm
  obtain ⟨D, hD, hex⟩ := exactDist_exists g e m maxd hball
  obtain ⟨p, hp, -⟩ := inv.frontier m D hex hD hm
  exact absurd hp (List.not_mem_nil p)

theorem mem_keep_insert (keep : List String) (n m : String) :
    m ∈ (if n ∈ keep then keep else keep ++ [n]) ↔ m = n ∨ m ∈ keep := by
  split
  · rename_i hn
    constructor
    · exact Or.inr
    · rintro (rfl | h)
      · exact hn
      · exact h
  · rw [List.mem_append, List.mem_singleton]
    tauto

theorem bfsLoop_nil (g : Graph) (maxd fuel : Nat) (V keep : List String) :
    bfsLoop g maxd fuel [] V keep = keep := by
  cases fuel <;> rfl

theorem bfsLoop_cons (g : Graph) (maxd fuel : Nat) (n : String) (d : Nat)
    (rest : List (String × Nat)) (visited keep : List String) :
    bfsLoop g maxd (fuel + 1) ((n, d) :: rest) visited keep =
      if d < maxd then
        bfsLoop g maxd fuel (bfsStep g n d rest visited).1
          (bfsStep g n d rest visited).2 (if n ∈ keep then keep else keep ++ [n])
      else
        bfsLoop g maxd fuel rest visited
          (if n ∈ keep then keep else keep ++ [n]) := rfl

/-- The BFS loop characterization: under the invariant and with sufficient
fuel, the returned keep set is the initial keep set, plus the queued nodes,
plus every unvisited node within distance `maxd` of the entry. -/
theorem bfsLoop_char (g : Graph) (maxd : Nat) (e : String)
    (hend : ∀ ed ∈ g.edges, ed.1 ∈ g.nodes ∧ ed.2 ∈ g.nodes) :
    ∀ (fuel : Nat) (Q : List (String × Nat)) (V keep : List String),
      BfsInv g maxd e Q V →
      Q.length + g.nodes.length + 1 ≤ fuel + V.length →
      ∀ m, m ∈ bfsLoop g maxd fuel Q V keep ↔
        m ∈ keep ∨ m ∈ Q.map Prod.fst ∨
          (reachInB g maxd e m = true ∧ m ∉ V) := by
  intro fuel
  induction fuel with
  | zero =>
    intro Q V keep inv hfuel m
    cases Q with
    | nil =>
      rw [bfsLoop_nil]
      constructor
      · exact Or.inl
      · rintro (h | h | ⟨hb, hv⟩)
        · exact h
        · simp at h
        · exact absurd (ball_sub_V_of_empty g maxd e V inv m hb) hv
    | cons p ps =>
      exfalso
      have hV := nodup_length_le V g.nodes inv.vnodup inv.vsub
      simp only [List.length_cons] at hfuel
      omega
  | succ fuel ih =>
    intro Q V keep inv hfuel m
    cases Q with
    | nil =>
      rw [bfsLoop_nil]
      constructor
      · exact Or.inl
      · rintro (h | h | ⟨hb, hv⟩)
        · exact h
        · simp at h
        · exact absurd (ball_sub_V_of_empty g maxd e V inv m hb) hv
    | cons p ps =>
      cases p with
      | mk n d =>
        rw [bfsLoop_cons]
        by_cases hd : d < maxd
        · rw [if_pos hd, bfsStep_eq]
          dsimp only
          have inv' := bfsInv_step g maxd e hend n d ps V inv hd
          have hfuel' : (ps ++ (freshNew V (successors g n)).map
              (fun s => (s, d + 1))).length + g.nodes.length + 1 ≤
              fuel + (V ++ freshNew V (successors g n)).length := by
            rw [List.length_append, List.length_map, List.length_append]
            simp only [List.length_cons] at hfuel
            omega
          rw [ih _ _ _ inv' hfuel' m, mem_keep_insert,
            List.map_append, map_fst_pair, List.map_cons]
          simp only [List.mem_append, not_or]
          have hF1 : m ∈ freshNew V (successors g n) →
              reachInB g maxd e m = true := by
            intro hx
            obtain ⟨dv, hdv, hr⟩ := inv'.vball m (List.mem_append.2 (Or.inr hx))
            exact reachInB_mono g dv maxd e m hdv hr
          have hF2 : m ∈ freshNew V (successors g n) → m ∉ V :=
            fun hx => ((mem_freshNew V _ m).1 hx).2
          rw [List.mem_cons]
          by_cases hmF : m ∈ freshNew V (successors g n)
          · have h1 := hF1 hmF
            have h2 := hF2 hmF
            tauto
          · tauto
        · rw [if_neg hd]
          have inv' := bfsInv_step_max g maxd e n d ps V inv hd
          have hfuel' : ps.length + g.nodes.length + 1 ≤ fuel + V.length := by
            simp only [List.length_cons] at hfuel
            omega
          rw [ih _ _ _ inv' hfuel' m, mem_keep_insert, List.map_cons,
            List.mem_cons]
          tauto

theorem bfsInv_init (g : Graph) (maxd : Nat) (e : String) (he : e ∈ g.nodes) :
    BfsInv g maxd e [(e, 0)] [e] := by
  refine ⟨?_, ?_, ?_, ?_, ?_, ?_, ?_, ?_, ?_, ?_⟩
  · simp
  · intro v hv
    rw [List.mem_singleton] at hv
    subst hv
    exact he
  · intro p hp
    rw [List.mem_singleton] at hp
    subst hp
    simp
  · simp
  · intro p hp
    rw [List.mem_singleton] at hp
    subst hp
    exact ⟨exactDist_self g e, Nat.zero_le maxd⟩
  · simp
  · intro p hp q0 qt hQ
    rw [List.mem_singleton] at hp
    subst hp
    omega
  · intro v hv hvQ q0 qt hQ
    rw [List.mem_singleton] at hv
    subst hv
    exact absurd (by simp) hvQ
  · intro v hv
    rw [List.mem_singleton] at hv
    subst hv
    exact ⟨0, Nat.zero_le _, reachInB_refl g 0 v⟩
  · intro m D hex hD hm
    exact ⟨(e, 0), List.mem_singleton.2 rfl, D, by omega, hex.1⟩

theorem bfsLoop_entry_char (g : Graph) (maxd : Nat) (e : String)
    (hend : ∀ ed ∈ g.edges, ed.1 ∈ g.nodes ∧ ed.2 ∈ g.nodes)
    (he : e ∈ g.nodes) (keep : List String) (m : String) :
    m ∈ bfsLoop g maxd (g.nodes.length + 1) [(e, 0)] [e] keep ↔
      m ∈ keep ∨ reachInB g maxd e m = true := by
  rw [bfsLoop_char g maxd e hend (g.nodes.length + 1) [(e, 0)] [e] keep
    (bfsInv_init g maxd e he) (by simp only [List.length_cons, List.length_nil]; omega) m]
  simp only [List.map_cons, List.map_nil]
  constructor
  · rintro (h | h | ⟨hb, hv⟩)
    · exact Or.inl h
    · rw [List.mem_singleton] at h
      rw [h]
      exact Or.inr (reachInB_refl g maxd e)
    · exact Or.inr hb
  · rintro (h | hb)
    · exact Or.inl h
    · by_cases hm : m ∈ ([e] : List String)
      · rw [List.mem_singleton] at hm
        rw [hm]
        exact Or.inr (Or.inl (List.mem_singleton.2 rfl))
      · exact Or.inr (Or.inr ⟨hb, hm⟩)

theorem depthFilterKeep_mem (g : Graph) (entries : List String) (maxd : Nat)
    (hend : ∀ ed ∈ g.edges, ed.1 ∈ g.nodes ∧ ed.2 ∈ g.nodes)
    (hsub : ∀ e ∈ entries, e ∈ g.nodes) (n : String) :
    n ∈ depthFilterKeep g entries maxd ↔
      ∃ e ∈ entries, reachInB g maxd e n = true := by
  unfold depthFilterKeep
  have hgo : ∀ (l : List String), (∀ e ∈ l, e ∈ g.nodes) →
      ∀ (init : List String),
      (n ∈ l.foldl (fun keep e =>
        if e ∈ g.nodes then bfsLoop g maxd (g.nodes.length + 1) [(e, 0)] [e] keep
        else keep) init ↔ n ∈ init ∨ ∃ e ∈ l, reachInB g maxd e n = true) := by
    intro l
    induction l with
    | nil => intro _ init; simp
    | cons e es ih =>
      intro hl init
      rw [List.foldl_cons, if_pos (hl e (List.mem_cons_self e es)),
        ih (fun x hx => hl x (List.mem_cons.2 (Or.inr hx))),
        bfsLoop_entry_char g maxd e hend (hl e (List.mem_cons_self e es)) init n]
      constructor
      · rintro ((h | hb) | ⟨x, hx, hr⟩)
        · exact Or.inl h
        · exact Or.inr ⟨e, List.mem_cons_self e es, hb⟩
        · exact Or.inr ⟨x, List.mem_cons.2 (Or.inr hx), hr⟩
      · rintro (h | ⟨x, hx, hr⟩)
        · exact Or.inl (Or.inl h)
        · rcases List.mem_cons.1 hx with rfl | hx
          · exact Or.inl (Or.inr hr)
          · exact Or.inr ⟨x, hx, hr⟩
  have hres := hgo entries hsub []
  simpa using hres

/-- C7: depth-filter characterization — for every well-formed graph and
non-empty entry set of graph nodes, depth 0 keeps exactly the entry nodes,
and in general a node is kept iff its first-seen BFS distance from some
entry along outgoing edges is at most the depth bound. -/
theorem depth_filter_characterization (g : Graph) (entries : List String)
    (hwf : g.WF) (hne : entries ≠ []) (hsub : ∀ e ∈ entries, e ∈ g.nodes) :
    (∀ n, n ∈ (apply_depth_filter g entries 0).nodes ↔ n ∈ entries) ∧
    (∀ d n, n ∈ (apply_depth_filter g entries d).nodes ↔
      ∃ e ∈ entries, reachInB g d e n = true) := by
  have hend := hwf.2.2
  have hpart2 : ∀ d n, n ∈ (apply_depth_filter g entries d).nodes ↔
      ∃ e ∈ entries, reachInB g d e n = true := by
    intro d n
    unfold apply_depth_filter
    dsimp only
    rw [List.mem_filter]
    constructor
    · rintro ⟨hn, hk⟩
      exact (depthFilterKeep_mem g entries d hend hsub n).1 (of_decide_eq_true hk)
    · intro h
      obtain ⟨e, he, hr⟩ := h
      refine ⟨reachInB_mem g hend d e n hr (hsub e he), decide_eq_true ?_⟩
      exact (depthFilterKeep_mem g entries d hend hsub n).2 ⟨e, he, hr⟩
  refine ⟨?_, hpart2⟩
  intro n
  rw [hpart2 0 n]
  constructor
  · rintro ⟨e, he, hr⟩
    exact ((reachInB_zero_iff g e n).1 hr) ▸ he
  · intro hn
    exact ⟨n, hn, reachInB_refl g 0 n⟩

/-- Witness for `depth_filter_characterization` on the chain `x → y → z`. -/
theorem depth_filter_characterization_witness :
    (⟨["x", "y", "z"], [("x", "y"), ("y", "z")]⟩ : Graph).WF ∧
    (["x"] : List String) ≠ [] ∧
    (∀ e ∈ (["x"] : List String),
      e ∈ (⟨["x", "y", "z"], [("x", "y"), ("y", "z")]⟩ : Graph).nodes) ∧
    ((∀ n, n ∈ (apply_depth_filter
        ⟨["x", "y", "z"], [("x", "y"), ("y", "z")]⟩ ["x"] 0).nodes ↔
        n ∈ (["x"] : List String)) ∧
     (∀ d n, n ∈ (apply_depth_filter
        ⟨["x", "y", "z"], [("x", "y"), ("y", "z")]⟩ ["x"] d).nodes ↔
        ∃ e ∈ (["x"] : List String),
          reachInB ⟨["x", "y", "z"], [("x", "y"), ("y", "z")]⟩ d e n = true)) :=
  ⟨by decide, by decide, by decide,
    depth_filter_characterization ⟨["x", "y", "z"], [("x", "y"), ("y", "z")]⟩
      ["x"] (by decide) (by decide) (by decide)⟩

end CodebaseDigest
